import Mathlib

/-!
Verification development for the interpolation-model subsystem and
trust-region iteration of a derivative-free constrained optimizer
(file models.py: classes TrustRegion, Models, Quadratic).

The Python code is embedded shallowly over exact rational arithmetic:

* numpy arrays become total functions from natural-number indices to
  rationals, with explicit dimension parameters on every operation
  (entries outside the dimension range are never read by the
  operations, and pointwise updates act on all indices);
* machine floats become rationals; the float constants
  numpy.finfo(float).tiny and numpy.finfo(float).eps become the exact
  rationals 2 to the power -1022 and 2 to the power -52;
* in-place mutation becomes functional state passing on explicit state
  records ModelsState and TRState;
* a raised exception becomes an Except/e-sum value carrying the state
  as mutated up to the raise point;
* the external subproblem oracles of the package (bvlag, bvcs, nnls,
  the black-box objective and constraint callables) are out of scope
  per the specification; their outputs enter the embedded operations
  as explicit arguments;
* square roots of floats are modelled by an abstract function
  parameter sq so that every theorem quantifying over it is
  independent of the rounding of the square root; the executable
  instances below use ratSqrt, which is exact on perfect squares.

The helpers omega_product and the Givens-rotation routine live outside
the embedded file (utils.py and the linalg package); they are modelled
from the specification where indicated.
-/

/-- Dot product of the first n components of two rational vectors,
numpy.inner restricted to length n. -/
def dotQ (n : ℕ) (u v : ℕ → ℚ) : ℚ :=
  ∑ i ∈ Finset.range n, u i * v i

/-- Fold of max over indices 0..m-1 starting from seed s; equals
numpy.max over the m values with keyword initial equal to s. -/
def foldMax : ℕ → ℚ → (ℕ → ℚ) → ℚ
  | 0, s, _ => s
  | m + 1, s, f => max (foldMax m s f) (f m)

/-- Fold of min over indices 0..m-1 starting from seed s; equals
numpy.min over the m values with keyword initial equal to s. -/
def foldMin : ℕ → ℚ → (ℕ → ℚ) → ℚ
  | 0, s, _ => s
  | m + 1, s, f => min (foldMin m s f) (f m)

/-- First index below m attaining the maximum of f, numpy.argmax:
the left-to-right scan keeps the earlier index on ties, so the
structural recursion compares index m against the scan of 0..m-1. -/
def argmaxQ : ℕ → (ℕ → ℚ) → ℕ
  | 0, _ => 0
  | m + 1, f => let b := argmaxQ m f; if f m > f b then m else b

/-- Smallest positive normal double, numpy.finfo(float).tiny. -/
def tinyQ : ℚ := 1 / 2 ^ (1022 : ℕ)

/-- Double-precision machine epsilon, numpy.finfo(float).eps. -/
def epsQ : ℚ := 1 / 2 ^ (52 : ℕ)

/-- Rational square root used to instantiate the abstract square-root
parameter of the embedding; it is exact whenever the numerator and the
denominator are perfect squares, which holds at every concrete input
appearing in this file. -/
def ratSqrt (q : ℚ) : ℚ :=
  (Nat.sqrt q.num.natAbs : ℚ) / (Nat.sqrt q.den : ℚ)

/-- Indicator vector with a one in component k0, used for the integer
calling convention of omega_product and of the Quadratic constructor. -/
def indicatorV (k0 : ℕ) : ℕ → ℚ :=
  fun k => if k = k0 then 1 else 0

/-- Modelled from the spec: omega_product from utils.py is not under
the embedded sources; section 4.2 of the specification defines it as
the product with Omega = Z J Z^T where J is the signature diagonal
with idz leading entries equal to -1.  Here m is the column count of
Z, namely npt - n - 1. -/
def omegaProduct (npt m : ℕ) (zmat : ℕ → ℕ → ℚ) (idz : ℕ) (v : ℕ → ℚ) : ℕ → ℚ :=
  fun i => ∑ j ∈ Finset.range m,
    (if j < idz then (-1 : ℚ) else 1) * zmat i j *
      (∑ k ∈ Finset.range npt, zmat k j * v k)

/-- Quadratic multivariate function in the split representation of
class Quadratic: gradient gq at the current expansion point, implicit
Hessian weights pq indexed by interpolation points, and explicit
Hessian part hq.  The Python attribute hq is optional with None read
as the zero matrix; the embedding stores the matrix itself, with zero
for the absent case, which is value-equivalent everywhere hq is read. -/
@[ext]
structure Quadratic where
  gq : ℕ → ℚ
  pq : ℕ → ℚ
  hq : ℕ → ℕ → ℚ

/-- Product of the Hessian matrix of the model with a vector,
Quadratic.hessp. -/
def Quadratic.hessp (n npt : ℕ) (q : Quadratic) (x : ℕ → ℚ) (xptM : ℕ → ℕ → ℚ) : ℕ → ℚ :=
  fun i =>
    (∑ k ∈ Finset.range npt, xptM k i * (q.pq k * dotQ n (xptM k) x)) +
      ∑ j ∈ Finset.range n, q.hq i j * x j

/-- Value of the quadratic at x, Quadratic.__call__: the model is
expanded around the interpolation point of index kopt and its constant
term is not maintained. -/
def Quadratic.eval (n npt : ℕ) (q : Quadratic) (x : ℕ → ℚ) (xptM : ℕ → ℕ → ℚ)
    (kopt : ℕ) : ℚ :=
  let d : ℕ → ℚ := fun i => x i - xptM kopt i
  dotQ n q.gq d +
    (1 / 2) * (∑ k ∈ Finset.range npt, q.pq k * dotQ n (xptM k) d ^ 2) +
    (1 / 2) * dotQ n d (fun i => ∑ j ∈ Finset.range n, q.hq i j * d j)

/-- Gradient of the quadratic at x, Quadratic.grad. -/
def Quadratic.grad (n npt : ℕ) (q : Quadratic) (x : ℕ → ℚ) (xptM : ℕ → ℕ → ℚ)
    (kopt : ℕ) : ℕ → ℚ :=
  fun i => q.gq i + Quadratic.hessp n npt q (fun l => x l - xptM kopt l) xptM i

/-- Curvature of the quadratic along x, Quadratic.curv. -/
def Quadratic.curv (n npt : ℕ) (q : Quadratic) (x : ℕ → ℚ) (xptM : ℕ → ℕ → ℚ) : ℚ :=
  (∑ k ∈ Finset.range npt, q.pq k * dotQ n (xptM k) x ^ 2) +
    dotQ n x (fun i => ∑ j ∈ Finset.range n, q.hq i j * x j)

/-- Quadratic.shift_expansion_point: move the expansion point by step,
adding the Hessian-vector product to the stored gradient. -/
def Quadratic.shiftExpansionPoint (n npt : ℕ) (q : Quadratic) (step : ℕ → ℚ)
    (xptM : ℕ → ℕ → ℚ) : Quadratic :=
  { q with gq := fun i => q.gq i + Quadratic.hessp n npt q step xptM i }

/-- Quadratic.shift_interpolation_points: absorb a displacement of the
origin by the symmetrized outer-product update of the explicit
Hessian. -/
def Quadratic.shiftInterpolationPoints (n npt : ℕ) (q : Quadratic)
    (xptM : ℕ → ℕ → ℚ) (kopt : ℕ) : Quadratic :=
  let hxpt : ℕ → ℕ → ℚ := fun k i => xptM k i - (1 / 2) * xptM kopt i
  let temp : ℕ → ℕ → ℚ := fun i j =>
    (∑ k ∈ Finset.range npt, hxpt k i * q.pq k) * xptM kopt j
  { q with hq := fun i j => q.hq i j + temp i j + temp j i }

/-- Quadratic.update: incremental update of the model when the
interpolation point of index knew is replaced; xptM is the point set
after the replacement, xold the replaced point, diff the difference
between the new value and the previous model prediction. -/
def Quadratic.update (n npt : ℕ) (q : Quadratic) (xptM : ℕ → ℕ → ℚ) (kopt : ℕ)
    (xold : ℕ → ℚ) (bmat zmat : ℕ → ℕ → ℚ) (idz knew : ℕ) (diff : ℚ) : Quadratic :=
  let omega := omegaProduct npt (npt - n - 1) zmat idz (indicatorV knew)
  let temp : ℕ → ℚ := fun k => omega k * dotQ n (xptM k) (xptM kopt)
  { gq := fun i => q.gq i +
      diff * (bmat knew i + ∑ k ∈ Finset.range npt, xptM k i * temp k)
    pq := fun k => (if k = knew then 0 else q.pq k) + diff * omega k
    hq := fun i j => q.hq i j + q.pq knew * xold i * xold j }

/-- Frobenius-minimum interpolant of a value vector, the vector branch
of the Quadratic constructor. -/
def Quadratic.fromValues (n npt m : ℕ) (bmat zmat : ℕ → ℕ → ℚ) (idz : ℕ)
    (fval : ℕ → ℚ) : Quadratic :=
  { gq := fun i => ∑ k ∈ Finset.range npt, bmat k i * fval k
    pq := omegaProduct npt m zmat idz fval
    hq := fun _ _ => 0 }

/-- Lagrange-polynomial branch of the Quadratic constructor (integer
value argument k0). -/
def Quadratic.lagrangePoly (npt m : ℕ) (bmat zmat : ℕ → ℕ → ℚ) (idz k0 : ℕ) :
    Quadratic :=
  { gq := fun i => bmat k0 i
    pq := omegaProduct npt m zmat idz (indicatorV k0)
    hq := fun _ _ => 0 }

/-- Maximum absolute entry of a rows-by-cols matrix, seeded at zero;
numpy.max of numpy.abs without the unit floor.  The callers that need
the floor of the code (keyword initial equal to one) take max 1 of
this value. -/
def matAbsMax (rows cols : ℕ) (M : ℕ → ℕ → ℚ) : ℚ :=
  foldMax rows 0 (fun i => foldMax cols 0 (fun j => |M i j|))

/-- State of the Models container: problem data, interpolation set,
inverse-KKT factorization and the quadratic models.  Dimensions are
carried as fields; array fields are total functions read only on the
index ranges fixed by the dimensions. -/
@[ext]
structure ModelsState where
  n : ℕ
  npt : ℕ
  mlub : ℕ
  mnlub : ℕ
  mleq : ℕ
  mnleq : ℕ
  xl : ℕ → ℚ
  xu : ℕ → ℚ
  aub : ℕ → ℕ → ℚ
  bub : ℕ → ℚ
  aeq : ℕ → ℕ → ℚ
  beq : ℕ → ℚ
  xpt : ℕ → ℕ → ℚ
  fval : ℕ → ℚ
  rval : ℕ → ℚ
  cvalub : ℕ → ℕ → ℚ
  cvaleq : ℕ → ℕ → ℚ
  bmat : ℕ → ℕ → ℚ
  zmat : ℕ → ℕ → ℚ
  idz : ℕ
  kopt : ℕ
  obj : Quadratic
  objAlt : Quadratic
  cubQ : ℕ → Quadratic
  cubAltQ : ℕ → Quadratic
  ceqQ : ℕ → Quadratic
  ceqAltQ : ℕ → Quadratic

/-- Column count npt - n - 1 of the rank factor Z. -/
def ModelsState.mcols (st : ModelsState) : ℕ := st.npt - st.n - 1

/-- Best interpolation point so far, property Models.xopt. -/
def ModelsState.xopt (st : ModelsState) : ℕ → ℚ := fun i => st.xpt st.kopt i

/-- Value of the objective at the best point, property Models.fopt. -/
def ModelsState.fopt (st : ModelsState) : ℚ := st.fval st.kopt

/-- Residual at the best point, property Models.ropt (TrustRegion.maxcv). -/
def ModelsState.ropt (st : ModelsState) : ℚ := st.rval st.kopt

/-- Nonlinear inequality values at the best point, Models.coptub. -/
def ModelsState.coptub (st : ModelsState) : ℕ → ℚ := fun j => st.cvalub st.kopt j

/-- Nonlinear equality values at the best point, Models.copteq. -/
def ModelsState.copteq (st : ModelsState) : ℕ → ℚ := fun j => st.cvaleq st.kopt j

/-- Value of the objective model at x, method Models.obj: the stored
quadratic is the displacement from the fopt interpolation value. -/
def ModelsState.objVal (st : ModelsState) (x : ℕ → ℚ) : ℚ :=
  st.fopt + st.obj.eval st.n st.npt x st.xpt st.kopt

/-- Value of the alternative objective model at x, Models.obj_alt. -/
def ModelsState.objAltVal (st : ModelsState) (x : ℕ → ℚ) : ℚ :=
  st.fopt + st.objAlt.eval st.n st.npt x st.xpt st.kopt

/-- Value of the i-th nonlinear inequality model at x, Models.cub: the
stored quadratic is the displacement from the coptub value. -/
def ModelsState.cubVal (st : ModelsState) (i : ℕ) (x : ℕ → ℚ) : ℚ :=
  st.coptub i + (st.cubQ i).eval st.n st.npt x st.xpt st.kopt

/-- Value of the i-th alternative inequality model at x, Models.cub_alt. -/
def ModelsState.cubAltVal (st : ModelsState) (i : ℕ) (x : ℕ → ℚ) : ℚ :=
  st.coptub i + (st.cubAltQ i).eval st.n st.npt x st.xpt st.kopt

/-- Value of the i-th nonlinear equality model at x, Models.ceq: the
stored quadratic is the displacement from the copteq value. -/
def ModelsState.ceqVal (st : ModelsState) (i : ℕ) (x : ℕ → ℚ) : ℚ :=
  st.copteq i + (st.ceqQ i).eval st.n st.npt x st.xpt st.kopt

/-- Value of the i-th alternative equality model at x, Models.ceq_alt. -/
def ModelsState.ceqAltVal (st : ModelsState) (i : ℕ) (x : ℕ → ℚ) : ℚ :=
  st.copteq i + (st.ceqAltQ i).eval st.n st.npt x st.xpt st.kopt

/-- Constraint residual of the problem at x given the nonlinear
constraint values there, method Models.resid. -/
def ModelsState.residVal (st : ModelsState) (x cubx ceqx : ℕ → ℚ) : ℚ :=
  let c1 := foldMax st.mlub 0 (fun i => dotQ st.n (st.aub i) x - st.bub i)
  let c2 := foldMax st.mnlub 0 cubx
  let c3 := foldMax st.mleq 0 (fun i => |dotQ st.n (st.aeq i) x - st.beq i|)
  let c4 := foldMax st.mnleq 0 (fun i => |ceqx i|)
  let c5 := foldMax st.n 0 (fun i => x i - st.xu i)
  let c6 := foldMax st.n 0 (fun i => st.xl i - x i)
  max (max (max c1 c2) (max c3 c4)) (max c5 c6)

/-- Parameter beta and the extended Lagrange-value vector vlag of the
updating formula at the trial point xopt + step, method Models._beta.
The first npt components of the second member are the Lagrange values;
the n following ones are the auxiliary tail of the formula. -/
def ModelsState.betaPair (st : ModelsState) (step : ℕ → ℚ) : ℚ × (ℕ → ℚ) :=
  let n := st.n
  let npt := st.npt
  let m := st.mcols
  let stepsq := dotQ n step step
  let xoptsq := dotQ n st.xopt st.xopt
  let stx := dotQ n step st.xopt
  let xstep : ℕ → ℚ := fun k => dotQ n (st.xpt k) step
  let xxopt : ℕ → ℚ := fun k => dotQ n (st.xpt k) st.xopt
  let check : ℕ → ℚ := fun k => xstep k * ((1 / 2) * xstep k + xxopt k)
  let temp : ℕ → ℚ := fun j =>
    (if j < st.idz then (-1 : ℚ) else 1) *
      ∑ k ∈ Finset.range npt, st.zmat k j * check k
  let betaZ := ∑ j ∈ Finset.range m,
    (if j < st.idz then (1 : ℚ) else -1) * temp j ^ 2
  let vhead : ℕ → ℚ := fun k =>
    dotQ n (st.bmat k) step + (∑ j ∈ Finset.range m, st.zmat k j * temp j) +
      (if k = st.kopt then 1 else 0)
  let vtail0 : ℕ → ℚ := fun j => ∑ k ∈ Finset.range npt, st.bmat k j * check k
  let bsp0 := ∑ j ∈ Finset.range n, vtail0 j * step j
  let vtail : ℕ → ℚ := fun j => vtail0 j + dotQ n (st.bmat (npt + j)) step
  let bsp := bsp0 + ∑ j ∈ Finset.range n, vtail j * step j
  let beta := betaZ + stx ^ 2 + stepsq * (xoptsq + 2 * stx + (1 / 2) * stepsq) - bsp
  (beta, fun i => if i < npt then vhead i else vtail (i - npt))

/-- Index selected for removal when none is supplied, method
Models._get_point_to_remove: the first maximizer of the product of the
absolute denominator estimate with the fourth power of the distance to
the best point. -/
def ModelsState.getPointToRemove (st : ModelsState) (beta : ℚ) (vlag : ℕ → ℚ) : ℕ :=
  let alphaV : ℕ → ℚ := fun k => ∑ j ∈ Finset.range st.mcols,
    (if j < st.idz then (-1 : ℚ) else 1) * st.zmat k j ^ 2
  let sigmaV : ℕ → ℚ := fun k => vlag k ^ 2 + beta * alphaV k
  let dsq : ℕ → ℚ := fun k =>
    ∑ i ∈ Finset.range st.n, (st.xpt k i - st.xopt i) ^ 2
  argmaxQ st.npt (fun k => |sigmaV k| * dsq k ^ 2)

/-- Modelled from the spec: the Givens helper of the linalg package is
an external oracle (section 6: in-place Givens rotation of two columns
or rows).  With side equal to 1 it rotates columns j1 and j2 of M by
the rotation with direction (cval, sval), normalized by the square
root of cval^2 + sval^2 taken through the abstract square-root
parameter sq; the caller in Models.update reads cval and sval off row
knew so that the rotated entry (knew, j1) vanishes and the energy of
the row accumulates in column j2. -/
def givensCols (sq : ℚ → ℚ) (M : ℕ → ℕ → ℚ) (cval sval : ℚ) (j1 j2 : ℕ) :
    ℕ → ℕ → ℚ :=
  let r := sq (cval ^ 2 + sval ^ 2)
  fun k l =>
    if l = j2 then (cval * M k j2 + sval * M k j1) / r
    else if l = j1 then (cval * M k j1 - sval * M k j2) / r
    else M k l

/-- One iteration of the zeroing loop of Models.update on column j:
skip the column at position idz (recording it as the new pivot
column), rotate columns j and jdz when the entry (knew, j) is nonzero,
and store an exact zero there afterwards as the code does. -/
def givensStep (sq : ℚ → ℚ) (knew idz : ℕ) (acc : (ℕ → ℕ → ℚ) × ℕ) (j : ℕ) :
    (ℕ → ℕ → ℚ) × ℕ :=
  if j = idz then (acc.1, idz)
  else if acc.1 knew j ≠ 0 then
    let Z1 := givensCols sq acc.1 (acc.1 knew acc.2) (acc.1 knew j) j acc.2
    (fun k l => if k = knew ∧ l = j then 0 else Z1 k l, acc.2)
  else acc

/-- Left-to-right iteration of givensStep over columns 1..t. -/
def givensIter (sq : ℚ → ℚ) (knew idz : ℕ) (Z0 : ℕ → ℕ → ℚ) :
    ℕ → (ℕ → ℕ → ℚ) × ℕ
  | 0 => (Z0, 0)
  | t + 1 => givensStep sq knew idz (givensIter sq knew idz Z0 t) (t + 1)

/-- Full zeroing loop of Models.update over columns 1 to m - 1,
returning the rotated matrix together with the final pivot column
index jdz. -/
def givensLoop (sq : ℚ → ℚ) (knew idz m : ℕ) (Z : ℕ → ℕ → ℚ) :
    (ℕ → ℕ → ℚ) × ℕ :=
  givensIter sq knew idz Z (m - 1)

/-- Method Models.update: swap update of the factorization after the
trial point xopt + step replaces the interpolation point of index
knew (selected by the code when not supplied).  The external function
and constraint evaluations at the trial point enter as fx, cubx and
ceqx.  A return of the error kind embeds the raise of
ZeroDivisionError: the carried state is the one the mutations
performed before the raise leave behind, namely the entry state with
zmat replaced by its Givens-rotated form. -/
def Models.update (sq : ℚ → ℚ) (st : ModelsState) (step : ℕ → ℚ) (fx : ℚ)
    (cubx ceqx : ℕ → ℚ) (knewOpt : Option ℕ) :
    Except ModelsState (ModelsState × ℕ) :=
  let n := st.n
  let npt := st.npt
  let m := st.mcols
  let bv := st.betaPair step
  let beta := bv.1
  let vlag0 := bv.2
  let knew := knewOpt.getD (st.getPointToRemove beta vlag0)
  let zr := givensLoop sq knew st.idz m st.zmat
  let zrot := zr.1
  let jdz := zr.2
  let scala := if st.idz = 0 then zrot knew 0 else -(zrot knew 0)
  let scalb := if jdz = 0 then (0 : ℚ) else zrot knew jdz
  let omega : ℕ → ℚ := fun k => scala * zrot k 0 + scalb * zrot k jdz
  let alpha := omega knew
  let tau := vlag0 knew
  let sigma := alpha * beta + tau ^ 2
  let vlag : ℕ → ℚ := fun i => if i = knew then vlag0 i - 1 else vlag0 i
  let bmax := max 1 (matAbsMax (npt + n) n st.bmat)
  let zmax := max 1 (matAbsMax npt m zrot)
  if |sigma| < tinyQ * max bmax zmax then
    .error { st with zmat := zrot }
  else
    let hval := sq |sigma|
    let zi : (ℕ → ℕ → ℚ) × ℕ × Bool :=
      if jdz = 0 then
        let sca := tau / hval
        let scb := zrot knew 0 / hval
        let z2 : ℕ → ℕ → ℚ := fun k l =>
          if l = 0 then sca * zrot k 0 - scb * vlag k else zrot k l
        if sigma < 0 then
          if st.idz = 0 then (z2, 1, false) else (z2, st.idz, true)
        else (z2, st.idz, false)
      else
        let kdz := if 0 ≤ beta then jdz else 0
        let jdz2 := jdz - kdz
        let tempa := zrot knew jdz2 * beta / sigma
        let tempb := zrot knew jdz2 * tau / sigma
        let tv := zrot knew kdz
        let sca := 1 / sq (|beta| * tv ^ 2 + tau ^ 2)
        let scb := sca * hval
        let z2 : ℕ → ℕ → ℚ := fun k l =>
          if l = kdz then sca * (tau * zrot k kdz - tv * vlag k)
          else if l = jdz2 then
            scb * (zrot k jdz2 - (tempa * omega k + tempb * vlag k))
          else zrot k l
        if sigma ≤ 0 then
          if beta < 0 then (z2, st.idz + 1, false) else (z2, st.idz, true)
        else (z2, st.idz, false)
    let z2 := zi.1
    let idz2 := zi.2.1
    let idz3 := if zi.2.2 then idz2 - 1 else idz2
    let zmat3 : ℕ → ℕ → ℚ :=
      if zi.2.2 then
        fun k l => if l = 0 then z2 k idz3 else if l = idz3 then z2 k 0 else z2 k l
      else z2
    let bsav : ℕ → ℚ := fun j => st.bmat knew j
    let cosv : ℕ → ℚ := fun j => (alpha * vlag (npt + j) - tau * bsav j) / sigma
    let sinv : ℕ → ℚ := fun j => (tau * vlag (npt + j) + beta * bsav j) / sigma
    let bmat2 : ℕ → ℕ → ℚ := fun k j =>
      if j < n then
        if k < npt then st.bmat k j + cosv j * vlag k - sinv j * omega k
        else if k < npt + n then
          let i := k - npt
          if j ≤ i then st.bmat (npt + j) i + cosv i * vlag (npt + j) - sinv i * bsav j
          else st.bmat k j + cosv j * vlag (npt + i) - sinv j * bsav i
        else st.bmat k j
      else st.bmat k j
    let xnew : ℕ → ℚ := fun i => st.xopt i + step i
    let xold : ℕ → ℚ := fun i => st.xpt knew i
    let dfx := fx - st.objVal xnew
    let dcub : ℕ → ℚ := fun i => cubx i - st.cubVal i xnew
    let dceq : ℕ → ℚ := fun i => ceqx i - st.ceqVal i xnew
    let fval2 : ℕ → ℚ := fun k => if k = knew then fx else st.fval k
    let cvalub2 : ℕ → ℕ → ℚ := fun k j => if k = knew then cubx j else st.cvalub k j
    let cvaleq2 : ℕ → ℕ → ℚ := fun k j => if k = knew then ceqx j else st.cvaleq k j
    let rknew := st.residVal (st.xpt knew) cubx ceqx
    let rval2 : ℕ → ℚ := fun k => if k = knew then rknew else st.rval k
    let xpt2 : ℕ → ℕ → ℚ := fun k i => if k = knew then xnew i else st.xpt k i
    let mkAlt : (ℕ → ℚ) → Quadratic := fun v =>
      (Quadratic.fromValues n npt m bmat2 zmat3 idz3 v).shiftExpansionPoint
        n npt (fun i => xpt2 st.kopt i) xpt2
    .ok ({ st with
      xpt := xpt2
      fval := fval2
      rval := rval2
      cvalub := cvalub2
      cvaleq := cvaleq2
      bmat := bmat2
      zmat := zmat3
      idz := idz3
      obj := st.obj.update n npt xpt2 st.kopt xold bmat2 zmat3 idz3 knew dfx
      objAlt := mkAlt fval2
      cubQ := fun i =>
        (st.cubQ i).update n npt xpt2 st.kopt xold bmat2 zmat3 idz3 knew (dcub i)
      cubAltQ := fun i => mkAlt (fun k => cvalub2 k i)
      ceqQ := fun i =>
        (st.ceqQ i).update n npt xpt2 st.kopt xold bmat2 zmat3 idz3 knew (dceq i)
      ceqAltQ := fun i => mkAlt (fun k => cvaleq2 k i) }, knew)

/-- Setter of Models.kopt: when the index changes, the expansion point
of every quadratic is shifted to the new best point before the index
is stored. -/
def Models.setKopt (st : ModelsState) (knew : ℕ) : ModelsState :=
  if st.kopt = knew then st
  else
    let step : ℕ → ℚ := fun i => st.xpt knew i - st.xopt i
    let sh : Quadratic → Quadratic := fun q =>
      q.shiftExpansionPoint st.n st.npt step st.xpt
    { st with
      kopt := knew
      obj := sh st.obj
      objAlt := sh st.objAlt
      cubQ := fun i => sh (st.cubQ i)
      cubAltQ := fun i => sh (st.cubAltQ i)
      ceqQ := fun i => sh (st.ceqQ i)
      ceqAltQ := fun i => sh (st.ceqAltQ i) }

/-- Method Models.shift_origin: move the origin of the calculations to
the current best point, updating the factor B by the two rank updates,
every quadratic by the symmetrized outer-product correction of its
explicit Hessian, the constraint data, and translating the point set. -/
def Models.shiftOrigin (st : ModelsState) : ModelsState :=
  let n := st.n
  let npt := st.npt
  let m := st.mcols
  let xopt : ℕ → ℚ := fun i => st.xpt st.kopt i
  let xoptsq := dotQ n xopt xopt
  let qoptsq := (1 / 4) * xoptsq
  let updt : ℕ → ℚ := fun k => dotQ n (st.xpt k) xopt - (1 / 2) * xoptsq
  let hxpt : ℕ → ℕ → ℚ := fun k i => st.xpt k i - (1 / 2) * xopt i
  let stepk : ℕ → ℕ → ℚ := fun k i => updt k * hxpt k i + qoptsq * xopt i
  let lower1 : ℕ → ℕ → ℚ := fun a b => st.bmat (npt + a) b +
    ∑ k ∈ Finset.range npt, (st.bmat k a * stepk k b + stepk k a * st.bmat k b)
  let temp : ℕ → ℕ → ℚ := fun a j =>
    qoptsq * xopt a * (∑ k ∈ Finset.range npt, st.zmat k j) +
      ∑ k ∈ Finset.range npt, hxpt k a * (st.zmat k j * updt k)
  let sgn : ℕ → ℚ := fun j => if j < st.idz then -1 else 1
  let bmat2 : ℕ → ℕ → ℚ := fun k j =>
    if k < npt then
      st.bmat k j + ∑ jj ∈ Finset.range m, sgn jj * (st.zmat k jj * temp j jj)
    else
      lower1 (k - npt) j + ∑ jj ∈ Finset.range m, sgn jj * (temp (k - npt) jj * temp j jj)
  let shQ : Quadratic → Quadratic := fun q =>
    q.shiftInterpolationPoints n npt st.xpt st.kopt
  { st with
    bmat := bmat2
    obj := shQ st.obj
    objAlt := shQ st.objAlt
    cubQ := fun i => shQ (st.cubQ i)
    cubAltQ := fun i => shQ (st.cubAltQ i)
    ceqQ := fun i => shQ (st.ceqQ i)
    ceqAltQ := fun i => shQ (st.ceqAltQ i)
    xl := fun i => st.xl i - xopt i
    xu := fun i => st.xu i - xopt i
    bub := fun i => st.bub i - dotQ n (st.aub i) xopt
    beq := fun i => st.beq i - dotQ n (st.aeq i) xopt
    xpt := fun k i => st.xpt k i - xopt i }

/-- Signed denominator estimate of the updating formula at the trial
displacement s for the replacement index klag: the value
vlag(klag)^2 + alpha times beta computed by Models.improve_geometry
through Models._beta and omega_product. -/
def Models.denomAt (st : ModelsState) (klag : ℕ) (s : ℕ → ℚ) : ℚ :=
  let omega := omegaProduct st.npt st.mcols st.zmat st.idz (indicatorV klag)
  let bv := st.betaPair s
  bv.2 klag ^ 2 + omega klag * bv.1

/-- Candidate selection of Models.improve_geometry: lineStep is the
output of the external oracle bvlag, and the pair (salt, cauchy) the
output of the external oracle bvcs (a candidate step and its predicted
denominator).  The method returns one of the two candidate steps. -/
def Models.improveGeometry (st : ModelsState) (klag : ℕ) (lineStep salt : ℕ → ℚ)
    (cauchy : ℚ) : ℕ → ℚ :=
  let tol := 10 * epsQ * (st.npt : ℚ)
  let sigma := Models.denomAt st klag lineStep
  if sigma < cauchy ∧ cauchy > tol * max 1 |sigma| then salt else lineStep

/-- State of the TrustRegion iteration on top of the Models container:
origin, penalty coefficients, Lagrange multipliers and the pending
step kind (knew of TrustRegion: none requests a trust-region step,
some k a model-improvement step on index k). -/
@[ext]
structure TRState where
  models : ModelsState
  xbase : ℕ → ℚ
  penub : ℚ
  peneq : ℚ
  lmlub : ℕ → ℚ
  lmleq : ℕ → ℚ
  lmnlub : ℕ → ℚ
  lmnleq : ℕ → ℚ
  knew : Option ℕ

/-- Property TrustRegion.is_model_step. -/
def TRState.isModelStep (ts : TRState) : Bool := ts.knew.isSome

/-- Method TrustRegion.__call__: value of the merit function at x
given the true evaluations fx, cubx, ceqx there, together with the
value of the merit function of the modeled problem (the member
returned when the model flag is passed).  A penalty term is dropped
when its coefficient is negligible against the multipliers. -/
def TRState.meritValues (ts : TRState) (x : ℕ → ℚ) (fx : ℚ)
    (cubx ceqx : ℕ → ℚ) : ℚ × ℚ :=
  let st := ts.models
  let n := st.n
  let lmlubMax := foldMax st.mlub 0 (fun i => |ts.lmlub i|)
  let alub := (1 / 2) * ts.penub *
    ∑ i ∈ Finset.range st.mlub,
      max 0 (dotQ n (st.aub i) x - st.bub i + ts.lmlub i / ts.penub) ^ 2
  let p1 := if |ts.penub| > tinyQ * lmlubMax then alub else 0
  let lmnlubMax := foldMax st.mnlub 0 (fun i => |ts.lmnlub i|)
  let p2 := if |ts.penub| > tinyQ * lmnlubMax then
      (1 / 2) * ts.penub *
        ∑ i ∈ Finset.range st.mnlub, max 0 (cubx i + ts.lmnlub i / ts.penub) ^ 2
    else 0
  let lmleqMax := foldMax st.mleq 0 (fun i => |ts.lmleq i|)
  let aleq := (1 / 2) * ts.peneq *
    ∑ i ∈ Finset.range st.mleq,
      (dotQ n (st.aeq i) x - st.beq i + ts.lmleq i / ts.peneq) ^ 2
  let p3 := if |ts.peneq| > tinyQ * lmleqMax then aleq else 0
  let lmnleqMax := foldMax st.mnleq 0 (fun i => |ts.lmnleq i|)
  let p4 := if |ts.peneq| > tinyQ * lmnleqMax then
      (1 / 2) * ts.peneq *
        ∑ i ∈ Finset.range st.mnleq, (ceqx i + ts.lmnleq i / ts.peneq) ^ 2
    else 0
  let q2 := if |ts.penub| > tinyQ * lmnlubMax then
      (1 / 2) * ts.penub *
        ∑ i ∈ Finset.range st.mnlub,
          max 0 (ts.lmnlub i / ts.penub + st.cubVal i x) ^ 2
    else 0
  let q4 := if |ts.peneq| > tinyQ * lmnleqMax then
      (1 / 2) * ts.peneq *
        ∑ i ∈ Finset.range st.mnleq,
          (ts.lmnleq i / ts.peneq + st.ceqVal i x) ^ 2
    else 0
  (fx + p1 + p2 + p3 + p4, p1 + p3 + st.objVal x + q2 + q4)

/-- True merit value, the first member of TrustRegion.__call__. -/
def TRState.meritAx (ts : TRState) (x : ℕ → ℚ) (fx : ℚ) (cubx ceqx : ℕ → ℚ) : ℚ :=
  (ts.meritValues x fx cubx ceqx).1

/-- Method TrustRegion.less_merit, embedded with the branch structure
of the code. -/
def TRState.lessMerit (ts : TRState) (mval1 rval1 mval2 rval2 : ℚ) : Bool :=
  let tol := 10 * epsQ * (ts.models.npt : ℚ) * max 1 |mval2|
  if mval1 < mval2 then true
  else if max ts.penub ts.peneq < tol then
    if |mval1 - mval2| ≤ tol ∧ rval1 < rval2 then true else false
  else false

/-- One step of the get_best_point scan: compare index k against the
running best pair acc of index and merit. -/
def TRState.bestStep (ts : TRState) (acc : ℕ × ℚ) (k : ℕ) : ℕ × ℚ :=
  let st := ts.models
  if k ≠ acc.1 then
    let mval := ts.meritAx (st.xpt k) (st.fval k)
      (fun j => st.cvalub k j) (fun j => st.cvaleq k j)
    if ts.lessMerit mval (st.rval k) acc.2 (st.rval acc.1) then (k, mval) else acc
  else acc

/-- Left-to-right scan of indices 0..m-1 with bestStep. -/
def TRState.bestScan (ts : TRState) (init : ℕ × ℚ) : ℕ → ℕ × ℚ
  | 0 => init
  | m + 1 => ts.bestStep (ts.bestScan init m) m

/-- Method TrustRegion.get_best_point: scan of the interpolation set
with the running best index and merit of the loop in the code. -/
def TRState.getBestPoint (ts : TRState) : ℕ :=
  let st := ts.models
  (ts.bestScan (st.kopt, ts.meritAx st.xopt st.fopt st.coptub st.copteq) st.npt).1

/-- Method TrustRegion.prepare_trust_region_step. -/
def TRState.prepareTrustRegionStep (ts : TRState) : TRState :=
  { ts with knew := none }

/-- Left-to-right scan keeping the first maximizer of an optional key,
with absent keys read as minus infinity. -/
def maskedScan (key : ℕ → Option ℚ) : ℕ → Option (ℕ × ℚ)
  | 0 => none
  | m + 1 =>
    match key m, maskedScan key m with
    | none, acc => acc
    | some v, none => some (m, v)
    | some v, some kv => if v > kv.2 then some (m, v) else some kv

/-- First maximizer below m of an optional key; mirrors numpy.argmax
after the masking of TrustRegion.prepare_model_step. -/
def maskedArgmax (m : ℕ) (key : ℕ → Option ℚ) : Option ℕ :=
  (maskedScan key m).map Prod.fst

/-- Method TrustRegion.prepare_model_step: select as knew the index of
a furthest interpolation point when some point lies strictly farther
than delta from the best point, and request a trust-region step
otherwise. -/
def TRState.prepareModelStep (ts : TRState) (delta : ℚ) : TRState :=
  let st := ts.models
  let dsq : ℕ → ℚ := fun k => ∑ i ∈ Finset.range st.n, (st.xpt k i - st.xopt i) ^ 2
  { ts with knew := (maskedArgmax st.npt
      (fun k => if dsq k > delta ^ 2 then some (dsq k) else none)) }

/-- Method TrustRegion.shift_origin: perform the origin displacement
only when the squared norm of the best point reaches ten times the
squared trust-region radius. -/
def TRState.shiftOrigin (ts : TRState) (delta : ℚ) : TRState :=
  let xoptsq := dotQ ts.models.n ts.models.xopt ts.models.xopt
  if xoptsq ≥ 10 * delta ^ 2 then
    { ts with
      xbase := fun i => ts.xbase i + ts.models.xopt i
      models := Models.shiftOrigin ts.models }
  else ts

/-- Maximum of the first m values of f, numpy.max without initial. -/
def vecMax (m : ℕ) (f : ℕ → ℚ) : ℚ := foldMax m (f 0) f

/-- Minimum of the first m values of f, numpy.min without initial. -/
def vecMin (m : ℕ) (f : ℕ → ℚ) : ℚ := foldMin m (f 0) f

/-- Minimum of f over the selected indices below m, or none when no
index is selected; the masked minimum of
TrustRegion.reduce_penalty_coefficients. -/
def optMinFilter : ℕ → (ℕ → Bool) → (ℕ → ℚ) → Option ℚ
  | 0, _, _ => none
  | m + 1, sel, f =>
    let acc := optMinFilter m sel f
    if sel m then
      match acc with
      | none => some (f m)
      | some a => some (min a (f m))
    else acc

/-- Row-k minimum (seeded at zero) of the stacked residual matrix of
the inequality branch of reduce_penalty_coefficients: linear residuals
then nonlinear values. -/
def TRState.cminUb (ts : TRState) (k : ℕ) : ℚ :=
  let st := ts.models
  foldMin (st.mlub + st.mnlub) 0 (fun j =>
    if j < st.mlub then dotQ st.n (st.aub j) (st.xpt k) - st.bub j
    else st.cvalub k (j - st.mlub))

/-- Row-k maximum (seeded at zero) of the stacked residual matrix of
the inequality branch of reduce_penalty_coefficients. -/
def TRState.cmaxUb (ts : TRState) (k : ℕ) : ℚ :=
  let st := ts.models
  foldMax (st.mlub + st.mnlub) 0 (fun j =>
    if j < st.mlub then dotQ st.n (st.aub j) (st.xpt k) - st.bub j
    else st.cvalub k (j - st.mlub))

/-- Row-k minimum (seeded at zero) of the stacked residual matrix of
the equality branch of reduce_penalty_coefficients. -/
def TRState.cminEq (ts : TRState) (k : ℕ) : ℚ :=
  let st := ts.models
  foldMin (st.mleq + st.mnleq) 0 (fun j =>
    if j < st.mleq then dotQ st.n (st.aeq j) (st.xpt k) - st.beq j
    else st.cvaleq k (j - st.mleq))

/-- Row-k maximum (seeded at zero) of the stacked residual matrix of
the equality branch of reduce_penalty_coefficients. -/
def TRState.cmaxEq (ts : TRState) (k : ℕ) : ℚ :=
  let st := ts.models
  foldMax (st.mleq + st.mnleq) 0 (fun j =>
    if j < st.mleq then dotQ st.n (st.aeq j) (st.xpt k) - st.beq j
    else st.cvaleq k (j - st.mleq))

/-- Admissibility of row k in the inequality branch of
reduce_penalty_coefficients. -/
def TRState.admUb (ts : TRState) (k : ℕ) : Bool :=
  decide (ts.cminUb k < 2 * ts.cmaxUb k)

/-- Admissibility of row k in the equality branch of
reduce_penalty_coefficients. -/
def TRState.admEq (ts : TRState) (k : ℕ) : Bool :=
  decide (ts.cminEq k < 2 * ts.cmaxEq k ∨ ts.cminEq k < (1 / 2) * ts.cmaxEq k)

/-- Method TrustRegion.reduce_penalty_coefficients. -/
def TRState.reducePenaltyCoefficients (ts : TRState) : TRState :=
  let st := ts.models
  let fmin := vecMin st.npt st.fval
  let fmax := vecMax st.npt st.fval
  let penub2 :=
    if ts.penub > 0 then
      let spread := fun k =>
        ts.cmaxUb k - (if ts.admUb k then min 0 (ts.cminUb k) else ts.cminUb k)
      match optMinFilter st.npt ts.admUb spread with
      | some denom => (fmax - fmin) / denom
      | none => 0
    else ts.penub
  let peneq2 :=
    if ts.peneq > 0 then
      let spread := fun k =>
        (if ts.admEq k then max 0 (ts.cmaxEq k) else ts.cmaxEq k) -
          (if ts.admEq k then min 0 (ts.cminEq k) else ts.cminEq k)
      match optMinFilter st.npt ts.admEq spread with
      | some denom => (fmax - fmin) / denom
      | none => 0
    else ts.peneq
  { ts with penub := penub2, peneq := peneq2 }

/-- Penalty-doubling while loop inside
TrustRegion.update_penalty_coefficients, with an explicit fuel bound:
a none result embeds nontermination of the while loop within the
allotted fuel.  The loop stops as soon as the best index moves away
from ksav or the trial point stops being model-worse. -/
def TRState.penaltyLoop (ts : TRState) (xnew : ℕ → ℚ) (fx : ℚ)
    (cubx ceqx : ℕ → ℚ) (mx mmx mopt : ℚ) (ksav : ℕ) :
    ℕ → Option (TRState × ℚ × ℚ × ℚ)
  | 0 => none
  | fuel + 1 =>
    if ksav = ts.models.kopt ∧ mmx > mopt then
      let penub2 := if ts.penub > 0 then 2 * ts.penub
        else if 0 < ts.models.mlub + ts.models.mnlub then 1 else ts.penub
      let peneq2 := if ts.peneq > 0 then 2 * ts.peneq
        else if 0 < ts.models.mleq + ts.models.mnleq then 1 else ts.peneq
      let ts1 := { ts with penub := penub2, peneq := peneq2 }
      let mv := ts1.meritValues xnew fx cubx ceqx
      let ts2 := { ts1 with models := Models.setKopt ts1.models ts1.getBestPoint }
      let mopt2 := ts2.meritAx ts2.models.xopt ts2.models.fopt
        ts2.models.coptub ts2.models.copteq
      ts2.penaltyLoop xnew fx cubx ceqx mv.1 mv.2 mopt2 ksav fuel
    else some (ts, mx, mmx, mopt)

/-- Method TrustRegion.update_penalty_coefficients: initial merit
evaluations followed by the doubling loop when the trial point is
model-worse than the incumbent on a trust-region step. -/
def TRState.updatePenaltyCoefficients (ts : TRState) (xnew : ℕ → ℚ) (fx : ℚ)
    (cubx ceqx : ℕ → ℚ) (fuel : ℕ) : Option (TRState × ℚ × ℚ × ℚ) :=
  let mv := ts.meritValues xnew fx cubx ceqx
  let mopt := ts.meritAx ts.models.xopt ts.models.fopt
    ts.models.coptub ts.models.copteq
  if ¬ ts.isModelStep ∧ mv.2 > mopt then
    ts.penaltyLoop xnew fx cubx ceqx mv.1 mv.2 mopt ts.models.kopt fuel
  else some (ts, mv.1, mv.2, mopt)

/-- Outcome of TrustRegion.update: the restart constructor embeds the
raise of RestartRequiredException, the breakdown constructor the
propagated ZeroDivisionError of Models.update; each carries the state
left behind by the mutations performed before the raise. -/
inductive TRUpdateResult where
  | restart (ts : TRState)
  | breakdown (ts : TRState)
  | ok (ts : TRState) (mopt rho : ℚ)

/-- Method TrustRegion.update.  The external evaluations of the user
objective and constraints at the trial point enter as fx, cubx, ceqx;
the multiplier vectors produced by update_multipliers through the
external nnls oracle enter as lm1..lm4 (update_multipliers runs only
when the problem has constraints); fuel bounds the penalty-doubling
loop, and a none result embeds its nontermination. -/
def TrustRegion.update (sq : ℚ → ℚ) (ts : TRState) (step : ℕ → ℚ) (fx : ℚ)
    (cubx ceqx : ℕ → ℚ) (lm1 lm2 lm3 lm4 : ℕ → ℚ) (fuel : ℕ) :
    Option TRUpdateResult :=
  let xsav : ℕ → ℚ := fun i => ts.models.xopt i
  let xnew : ℕ → ℚ := fun i => xsav i + step i
  let ts0 :=
    if 0 < ts.models.mlub + ts.models.mnlub + ts.models.mleq + ts.models.mnleq then
      { ts with lmlub := lm1, lmleq := lm2, lmnlub := lm3, lmnleq := lm4 }
    else ts
  let ksav := ts0.models.kopt
  match ts0.updatePenaltyCoefficients xnew fx cubx ceqx fuel with
  | none => none
  | some (ts1, mx, mmx, mopt) =>
    if ksav ≠ ts1.models.kopt then
      some (.restart { ts1 with knew := none })
    else
      let rho := if ¬ ts1.isModelStep ∧ |mopt - mmx| > tinyQ * |mopt - mx| then
          (mopt - mx) / (mopt - mmx)
        else -1
      let step2 : ℕ → ℚ := fun i => step i + xsav i - ts1.models.xopt i
      let rx := ts1.models.residVal xnew cubx ceqx
      match Models.update sq ts1.models step2 fx cubx ceqx ts1.knew with
      | .error mst => some (.breakdown { ts1 with models := mst })
      | .ok (mst, knewRet) =>
        if ts1.lessMerit mx rx mopt (mst.rval mst.kopt) then
          some (.ok { ts1 with
                      models := Models.setKopt mst knewRet
                      knew := some knewRet } mx rho)
        else
          some (.ok { ts1 with models := mst, knew := some knewRet } mopt rho)

/-- Zero vector of rationals. -/
def zeroVec : ℕ → ℚ := fun _ => 0

/-- Quadratic with zero coefficients. -/
def zeroQuad : Quadratic := ⟨fun _ => 0, fun _ => 0, fun _ _ => 0⟩

/-- Unconstrained concrete Models state with n 1 and npt 4 used by
several concrete instances below: interpolation abscissas 0, 1, 2, 3,
zero B factor, and a Z factor whose row 3 is (3, 4) so that the
zeroing loop of the swap update fires a rotation on it. -/
def cexModels1 : ModelsState :=
  { n := 1, npt := 4, mlub := 0, mnlub := 0, mleq := 0, mnleq := 0
    xl := fun _ => -1000, xu := fun _ => 1000
    aub := fun _ _ => 0, bub := fun _ => 0, aeq := fun _ _ => 0, beq := fun _ => 0
    xpt := fun k i => if i = 0 then
      (if k = 1 then 1 else if k = 2 then 2 else if k = 3 then 3 else 0) else 0
    fval := fun _ => 0, rval := fun _ => 0
    cvalub := fun _ _ => 0, cvaleq := fun _ _ => 0
    bmat := fun _ _ => 0
    zmat := fun k j =>
      if j = 0 then (if k = 0 then 1 else if k = 3 then 3 else 0)
      else if j = 1 then (if k = 1 then 1 else if k = 3 then 4 else 0)
      else 0
    idz := 0, kopt := 0
    obj := zeroQuad, objAlt := zeroQuad
    cubQ := fun _ => zeroQuad, cubAltQ := fun _ => zeroQuad
    ceqQ := fun _ => zeroQuad, ceqAltQ := fun _ => zeroQuad }

/-- Unconstrained concrete Models state with n 1 and npt 4 whose swap
update produces the exact denominator sigma equal to 2 to the power
-1023: abscissas 0, 1, 2, -1, zero B factor, and a Z factor with the
single nonzero column (0, 1/2, -1/8 - 2^-257, 2^-255). -/
def cexModels2 : ModelsState :=
  { n := 1, npt := 4, mlub := 0, mnlub := 0, mleq := 0, mnleq := 0
    xl := fun _ => -1000, xu := fun _ => 1000
    aub := fun _ _ => 0, bub := fun _ => 0, aeq := fun _ _ => 0, beq := fun _ => 0
    xpt := fun k i => if i = 0 then
      (if k = 1 then 1 else if k = 2 then 2 else if k = 3 then -1 else 0) else 0
    fval := fun _ => 0, rval := fun _ => 0
    cvalub := fun _ _ => 0, cvaleq := fun _ _ => 0
    bmat := fun _ _ => 0
    zmat := fun k j =>
      if j = 0 then
        (if k = 1 then 1 / 2
         else if k = 2 then -(1 / 8) - 1 / 2 ^ (257 : ℕ)
         else if k = 3 then 1 / 2 ^ (255 : ℕ) else 0)
      else 0
    idz := 0, kopt := 0
    obj := zeroQuad, objAlt := zeroQuad
    cubQ := fun _ => zeroQuad, cubAltQ := fun _ => zeroQuad
    ceqQ := fun _ => zeroQuad, ceqAltQ := fun _ => zeroQuad }

/-- Trial displacement 2 to the power -128 on the single coordinate,
paired with cexModels2. -/
def cexStep2 : ℕ → ℚ := fun _ => 1 / 2 ^ (128 : ℕ)

/-- Error projection of an Except value. -/
def errPart {α β : Type} (e : Except α β) : Option α :=
  match e with
  | .error s => some s
  | .ok _ => none

/-- Success projection of an Except value. -/
def okPart {α β : Type} (e : Except α β) : Option β :=
  match e with
  | .error _ => none
  | .ok v => some v

/-- Concrete trust-region state over cexModels1 with a unit inequality
penalty, used to witness hypotheses of several theorems. -/
def cexTR1 : TRState :=
  { models := cexModels1, xbase := zeroVec, penub := 1, peneq := 0
    lmlub := zeroVec, lmleq := zeroVec, lmnlub := zeroVec, lmnleq := zeroVec
    knew := none }

/-- C5: the merit comparison less_merit returns true exactly when the
first merit value is strictly smaller, or when both penalty
coefficients lie below the tolerance 10 eps npt max(1, abs mval2), the
merit values agree within that tolerance and the first residual is
strictly smaller; in particular, when the penalties are not below the
tolerance, equal merit values never win on residuals. -/
theorem spec_c5_less_merit (ts : TRState) (mval1 rval1 mval2 rval2 : ℚ) :
    (ts.lessMerit mval1 rval1 mval2 rval2 = true ↔
      (mval1 < mval2 ∨
        (max ts.penub ts.peneq < 10 * epsQ * (ts.models.npt : ℚ) * max 1 |mval2| ∧
          |mval1 - mval2| ≤ 10 * epsQ * (ts.models.npt : ℚ) * max 1 |mval2| ∧
          rval1 < rval2))) ∧
    (10 * epsQ * (ts.models.npt : ℚ) * max 1 |mval2| ≤ max ts.penub ts.peneq →
      mval1 = mval2 → ts.lessMerit mval1 rval1 mval2 rval2 = false) := by
  constructor
  · simp only [TRState.lessMerit]
    split_ifs with h1 h2 h3
    · simp only [true_iff]
      exact Or.inl h1
    · simp only [true_iff]
      exact Or.inr ⟨h2, h3.1, h3.2⟩
    · simp only [Bool.false_eq_true, false_iff]
      rintro (hc | ⟨hA, hB, hC⟩)
      · exact h1 hc
      · exact h3 ⟨hB, hC⟩
    · simp only [Bool.false_eq_true, false_iff]
      rintro (hc | ⟨hA, hB, hC⟩)
      · exact h1 hc
      · exact h2 hA
  · intro hge heq
    simp only [TRState.lessMerit]
    split_ifs with h1 h2 h3
    · exact absurd h1 (by simp [heq])
    · exact absurd h2 (not_lt.mpr hge)
    · rfl
    · rfl

/-- Witness for C5 at a concrete state: penalties at or above the
tolerance, equal merit values, better residual, still not accepted. -/
theorem spec_c5_witness : cexTR1.lessMerit 5 0 5 1 = false :=
  (spec_c5_less_merit cexTR1 5 0 5 1).2
    (by norm_num [cexTR1, cexModels1, epsQ]) rfl

/-- The masked scan returns none exactly when every key is absent. -/
theorem maskedScan_eq_none_iff (key : ℕ → Option ℚ) (m : ℕ) :
    maskedScan key m = none ↔ ∀ k, k < m → key k = none := by
  induction m with
  | zero => simp [maskedScan]
  | succ m ih =>
    unfold maskedScan
    cases hm : key m with
    | none =>
      simp only []
      rw [ih]
      constructor
      · intro h k hk
        rcases Nat.lt_succ_iff_lt_or_eq.mp hk with h' | h'
        · exact h k h'
        · rw [h']; exact hm
      · intro h k hk
        exact h k (Nat.lt_succ_of_lt hk)
    | some v =>
      cases hacc : maskedScan key m with
      | none =>
        simp only []
        constructor
        · intro h; exact absurd h (by simp)
        · intro h
          exact absurd (h m (Nat.lt_succ_self m)) (by simp [hm])
      | some kv =>
        simp only []
        constructor
        · intro h
          split_ifs at h <;> simp_all
        · intro h
          exact absurd (h m (Nat.lt_succ_self m)) (by simp [hm])

/-- When the masked scan returns a pair, its index is in range, its
key holds the recorded value, and that value dominates every present
key below m. -/
theorem maskedScan_spec (key : ℕ → Option ℚ) (m k : ℕ) (v : ℚ)
    (h : maskedScan key m = some (k, v)) :
    k < m ∧ key k = some v ∧ ∀ j, j < m → ∀ w, key j = some w → w ≤ v := by
  induction m generalizing k v with
  | zero => simp [maskedScan] at h
  | succ m ih =>
    unfold maskedScan at h
    cases hm : key m with
    | none =>
      rw [hm] at h
      obtain ⟨hk, hkey, hdom⟩ := ih k v h
      refine ⟨Nat.lt_succ_of_lt hk, hkey, fun j hj w hw => ?_⟩
      rcases Nat.lt_succ_iff_lt_or_eq.mp hj with h' | h'
      · exact hdom j h' w hw
      · rw [h'] at hw; rw [hm] at hw; exact absurd hw (by simp)
    | some v' =>
      rw [hm] at h
      cases hacc : maskedScan key m with
      | none =>
        rw [hacc] at h
        simp only [Option.some.injEq, Prod.mk.injEq] at h
        obtain ⟨hk, hv⟩ := h
        subst hk; subst hv
        refine ⟨Nat.lt_succ_self m, hm, fun j hj w hw => ?_⟩
        rcases Nat.lt_succ_iff_lt_or_eq.mp hj with h' | h'
        · rw [(maskedScan_eq_none_iff key m).mp hacc j h'] at hw
          exact absurd hw (by simp)
        · rw [h', hm] at hw
          simp only [Option.some.injEq] at hw
          exact le_of_eq hw.symm
      | some kv =>
        obtain ⟨a, b⟩ := kv
        rw [hacc] at h
        dsimp only at h
        obtain ⟨hk', hkey', hdom'⟩ := ih a b (by rw [hacc])
        split_ifs at h with hgt
        · simp only [Option.some.injEq, Prod.mk.injEq] at h
          obtain ⟨hk, hv⟩ := h
          subst hk; subst hv
          refine ⟨Nat.lt_succ_self m, hm, fun j hj w hw => ?_⟩
          rcases Nat.lt_succ_iff_lt_or_eq.mp hj with h' | h'
          · exact le_of_lt (lt_of_le_of_lt (hdom' j h' w hw) hgt)
          · rw [h', hm] at hw
            simp only [Option.some.injEq] at hw
            exact le_of_eq hw.symm
        · simp only [Option.some.injEq, Prod.mk.injEq] at h
          obtain ⟨hk, hv⟩ := h
          subst hk; subst hv
          refine ⟨Nat.lt_succ_of_lt hk', hkey', fun j hj w hw => ?_⟩
          rcases Nat.lt_succ_iff_lt_or_eq.mp hj with h' | h'
          · exact hdom' j h' w hw
          · rw [h', hm] at hw
            simp only [Option.some.injEq] at hw
            subst hw
            exact not_lt.mp hgt

/-- C10: after prepare_model_step(delta), a model step is pending
exactly when some interpolation point lies at squared distance
strictly greater than delta squared from the best point; in that case
knew is an index of a point of maximal squared distance, and the call
changes nothing but knew. -/
theorem spec_c10_prepare_model_step (ts : TRState) (delta : ℚ) :
    (((ts.prepareModelStep delta).isModelStep = true) ↔
      (∃ k, k < ts.models.npt ∧ delta ^ 2 <
        ∑ i ∈ Finset.range ts.models.n, (ts.models.xpt k i - ts.models.xopt i) ^ 2)) ∧
    (∀ k, (ts.prepareModelStep delta).knew = some k →
      k < ts.models.npt ∧
      delta ^ 2 <
        (∑ i ∈ Finset.range ts.models.n, (ts.models.xpt k i - ts.models.xopt i) ^ 2) ∧
      ∀ j, j < ts.models.npt →
        (∑ i ∈ Finset.range ts.models.n, (ts.models.xpt j i - ts.models.xopt i) ^ 2) ≤
          ∑ i ∈ Finset.range ts.models.n, (ts.models.xpt k i - ts.models.xopt i) ^ 2) ∧
    (ts.prepareModelStep delta).models = ts.models ∧
    (ts.prepareModelStep delta).xbase = ts.xbase ∧
    (ts.prepareModelStep delta).penub = ts.penub ∧
    (ts.prepareModelStep delta).peneq = ts.peneq ∧
    (ts.prepareModelStep delta).lmlub = ts.lmlub ∧
    (ts.prepareModelStep delta).lmleq = ts.lmleq ∧
    (ts.prepareModelStep delta).lmnlub = ts.lmnlub ∧
    (ts.prepareModelStep delta).lmnleq = ts.lmnleq := by
  set dsq : ℕ → ℚ := fun k =>
    ∑ i ∈ Finset.range ts.models.n, (ts.models.xpt k i - ts.models.xopt i) ^ 2 with hdsq
  set key : ℕ → Option ℚ := fun k =>
    if dsq k > delta ^ 2 then some (dsq k) else none with hkey
  have hknew : (ts.prepareModelStep delta).knew = maskedArgmax ts.models.npt key := by
    simp only [TRState.prepareModelStep, hkey, hdsq, ModelsState.xopt]
  refine ⟨?_, ?_, rfl, rfl, rfl, rfl, rfl, rfl, rfl, rfl⟩
  · rw [TRState.isModelStep, hknew, maskedArgmax]
    cases hms : maskedScan key ts.models.npt with
    | none =>
      simp only [Option.map_none', Option.isSome_none, Bool.false_eq_true, false_iff]
      rintro ⟨k, hk, hgt⟩
      have := (maskedScan_eq_none_iff key ts.models.npt).mp hms k hk
      rw [hkey] at this
      simp [hgt] at this
    | some kv =>
      simp only [Option.map_some', Option.isSome_some, true_iff]
      obtain ⟨hk, hkeyk, _⟩ := maskedScan_spec key ts.models.npt kv.1 kv.2 (by rw [hms])
      refine ⟨kv.1, hk, ?_⟩
      by_contra hle
      rw [hkey] at hkeyk
      simp [hle] at hkeyk
  · intro k hk
    rw [hknew, maskedArgmax] at hk
    cases hms : maskedScan key ts.models.npt with
    | none => rw [hms] at hk; simp at hk
    | some kv =>
      rw [hms] at hk
      simp only [Option.map_some', Option.some.injEq] at hk
      obtain ⟨hlt, hkeyk, hdom⟩ := maskedScan_spec key ts.models.npt kv.1 kv.2 (by rw [hms])
      subst hk
      have hcond : delta ^ 2 < dsq kv.1 ∧ kv.2 = dsq kv.1 := by
        rw [hkey] at hkeyk
        by_cases hc : dsq kv.1 > delta ^ 2
        · simp only [gt_iff_lt, if_pos hc, Option.some.injEq] at hkeyk
          exact ⟨hc, hkeyk.symm⟩
        · simp [hc] at hkeyk
      refine ⟨hlt, hcond.1, fun j hj => ?_⟩
      by_cases hcj : dsq j > delta ^ 2
      · have := hdom j hj (dsq j) (by rw [hkey]; simp [hcj])
        show dsq j ≤ dsq kv.1
        rw [← hcond.2]
        exact this
      · show dsq j ≤ dsq kv.1
        exact le_of_lt (lt_of_le_of_lt (not_lt.mp hcj) hcond.1)
theorem spec_c10_witness :
    3 < cexTR1.models.npt ∧
    (0 : ℚ) ^ 2 <
      (∑ i ∈ Finset.range cexTR1.models.n,
        (cexTR1.models.xpt 3 i - cexTR1.models.xopt i) ^ 2) ∧
    ∀ j, j < cexTR1.models.npt →
      (∑ i ∈ Finset.range cexTR1.models.n,
        (cexTR1.models.xpt j i - cexTR1.models.xopt i) ^ 2) ≤
        ∑ i ∈ Finset.range cexTR1.models.n,
          (cexTR1.models.xpt 3 i - cexTR1.models.xopt i) ^ 2 :=
  (spec_c10_prepare_model_step cexTR1 0).2.1 3 (by
    norm_num [TRState.prepareModelStep, maskedArgmax, maskedScan, cexTR1,
      cexModels1, ModelsState.xopt, Finset.sum_range_succ])

/-- The masked minimum returns none exactly when no index below m is
selected. -/
theorem optMinFilter_eq_none_iff (m : ℕ) (sel : ℕ → Bool) (f : ℕ → ℚ) :
    optMinFilter m sel f = none ↔ ∀ k, k < m → sel k = false := by
  induction m with
  | zero => simp [optMinFilter]
  | succ m ih =>
    unfold optMinFilter
    by_cases hm : sel m
    · simp only [hm, if_true]
      cases hacc : optMinFilter m sel f with
      | none =>
        constructor
        · intro h; exact absurd h (by simp)
        · intro h; exact absurd (h m (Nat.lt_succ_self m)) (by simp [hm])
      | some a =>
        constructor
        · intro h; exact absurd h (by simp)
        · intro h; exact absurd (h m (Nat.lt_succ_self m)) (by simp [hm])
    · simp only [hm, Bool.false_eq_true, if_false]
      rw [ih]
      constructor
      · intro h k hk
        rcases Nat.lt_succ_iff_lt_or_eq.mp hk with h' | h'
        · exact h k h'
        · rw [h']; simpa using hm
      · intro h k hk
        exact h k (Nat.lt_succ_of_lt hk)

/-- When the masked minimum returns a value, it is attained at a
selected index and bounds every selected value below m. -/
theorem optMinFilter_spec (m : ℕ) (sel : ℕ → Bool) (f : ℕ → ℚ) (d : ℚ)
    (h : optMinFilter m sel f = some d) :
    (∃ k, k < m ∧ sel k = true ∧ f k = d) ∧
      ∀ k, k < m → sel k = true → d ≤ f k := by
  induction m generalizing d with
  | zero => simp [optMinFilter] at h
  | succ m ih =>
    unfold optMinFilter at h
    by_cases hm : sel m
    · rw [if_pos hm] at h
      cases hacc : optMinFilter m sel f with
      | none =>
        rw [hacc] at h
        simp only [Option.some.injEq] at h
        subst h
        refine ⟨⟨m, Nat.lt_succ_self m, hm, rfl⟩, fun k hk hselk => ?_⟩
        rcases Nat.lt_succ_iff_lt_or_eq.mp hk with h' | h'
        · rw [(optMinFilter_eq_none_iff m sel f).mp hacc k h'] at hselk
          exact absurd hselk (by simp)
        · rw [h']
      | some a =>
        rw [hacc] at h
        simp only [Option.some.injEq] at h
        subst h
        obtain ⟨⟨k0, hk0, hsel0, hf0⟩, hmin⟩ := ih a hacc
        rcases le_total a (f m) with hle | hle
        · refine ⟨⟨k0, Nat.lt_succ_of_lt hk0, hsel0, by rw [hf0, min_eq_left hle]⟩,
            fun k hk hselk => ?_⟩
          rcases Nat.lt_succ_iff_lt_or_eq.mp hk with h' | h'
          · exact le_trans (min_le_left _ _) (hmin k h' hselk)
          · rw [h']; exact min_le_right _ _
        · refine ⟨⟨m, Nat.lt_succ_self m, hm, (min_eq_right hle).symm⟩,
            fun k hk hselk => ?_⟩
          rcases Nat.lt_succ_iff_lt_or_eq.mp hk with h' | h'
          · exact le_trans (min_le_left _ _) (hmin k h' hselk)
          · rw [h']; exact min_le_right _ _
    · rw [if_neg hm] at h
      obtain ⟨⟨k0, hk0, hsel0, hf0⟩, hmin⟩ := ih d h
      refine ⟨⟨k0, Nat.lt_succ_of_lt hk0, hsel0, hf0⟩, fun k hk hselk => ?_⟩
      rcases Nat.lt_succ_iff_lt_or_eq.mp hk with h' | h'
      · exact hmin k h' hselk
      · rw [h'] at hselk; exact absurd hselk (by simp [hm])

/-- C7: reduce_penalty_coefficients with a positive inequality
coefficient sets it to (fmax - fmin) divided by the smallest admissible
row spread, or to zero when no row is admissible, and the analogous
statement holds for the equality coefficient; a coefficient already at
zero stays at zero.  The row spreads carry the clamping of the code:
the admissible inequality rows use cmax - min(0, cmin), the admissible
equality rows max(0, cmax) - min(0, cmin). -/
theorem spec_c7_reduce_penalty (ts : TRState) :
    (0 < ts.penub →
      ((∃ k, k < ts.models.npt ∧ ts.admUb k = true) →
        ∃ k, k < ts.models.npt ∧ ts.admUb k = true ∧
          (ts.reducePenaltyCoefficients).penub =
            (vecMax ts.models.npt ts.models.fval - vecMin ts.models.npt ts.models.fval) /
              (ts.cmaxUb k - min 0 (ts.cminUb k)) ∧
          ∀ j, j < ts.models.npt → ts.admUb j = true →
            ts.cmaxUb k - min 0 (ts.cminUb k) ≤ ts.cmaxUb j - min 0 (ts.cminUb j)) ∧
      ((∀ k, k < ts.models.npt → ts.admUb k = false) →
        (ts.reducePenaltyCoefficients).penub = 0)) ∧
    (ts.penub = 0 → (ts.reducePenaltyCoefficients).penub = 0) ∧
    (0 < ts.peneq →
      ((∃ k, k < ts.models.npt ∧ ts.admEq k = true) →
        ∃ k, k < ts.models.npt ∧ ts.admEq k = true ∧
          (ts.reducePenaltyCoefficients).peneq =
            (vecMax ts.models.npt ts.models.fval - vecMin ts.models.npt ts.models.fval) /
              (max 0 (ts.cmaxEq k) - min 0 (ts.cminEq k)) ∧
          ∀ j, j < ts.models.npt → ts.admEq j = true →
            max 0 (ts.cmaxEq k) - min 0 (ts.cminEq k) ≤
              max 0 (ts.cmaxEq j) - min 0 (ts.cminEq j)) ∧
      ((∀ k, k < ts.models.npt → ts.admEq k = false) →
        (ts.reducePenaltyCoefficients).peneq = 0)) ∧
    (ts.peneq = 0 → (ts.reducePenaltyCoefficients).peneq = 0) := by
  refine ⟨?_, ?_, ?_, ?_⟩
  · intro hpos
    constructor
    · rintro ⟨k, hk, hadm⟩
      have hne : optMinFilter ts.models.npt ts.admUb
          (fun k => ts.cmaxUb k -
            (if ts.admUb k then min 0 (ts.cminUb k) else ts.cminUb k)) ≠ none := by
        rw [Ne, optMinFilter_eq_none_iff]
        push_neg
        exact ⟨k, hk, by simp [hadm]⟩
      cases hopt : optMinFilter ts.models.npt ts.admUb
          (fun k => ts.cmaxUb k -
            (if ts.admUb k then min 0 (ts.cminUb k) else ts.cminUb k)) with
      | none => exact absurd hopt hne
      | some d =>
        obtain ⟨⟨k0, hk0, hsel0, hf0⟩, hmin⟩ := optMinFilter_spec _ _ _ _ hopt
        refine ⟨k0, hk0, hsel0, ?_, ?_⟩
        · simp only [TRState.reducePenaltyCoefficients, if_pos hpos, hopt]
          rw [← hf0]
          simp only [if_pos hsel0]
        · intro j hj hadmj
          have hle := hmin j hj hadmj
          rw [← hf0] at hle
          simp only [if_pos hsel0, if_pos hadmj] at hle
          exact hle
    · intro hall
      have hnone : optMinFilter ts.models.npt ts.admUb
          (fun k => ts.cmaxUb k -
            (if ts.admUb k then min 0 (ts.cminUb k) else ts.cminUb k)) = none :=
        (optMinFilter_eq_none_iff _ _ _).mpr hall
      simp only [TRState.reducePenaltyCoefficients, if_pos hpos, hnone]
  · intro h0
    simp only [TRState.reducePenaltyCoefficients, h0]
    norm_num
  · intro hpos
    constructor
    · rintro ⟨k, hk, hadm⟩
      have hne : optMinFilter ts.models.npt ts.admEq
          (fun k => (if ts.admEq k then max 0 (ts.cmaxEq k) else ts.cmaxEq k) -
            (if ts.admEq k then min 0 (ts.cminEq k) else ts.cminEq k)) ≠ none := by
        rw [Ne, optMinFilter_eq_none_iff]
        push_neg
        exact ⟨k, hk, by simp [hadm]⟩
      cases hopt : optMinFilter ts.models.npt ts.admEq
          (fun k => (if ts.admEq k then max 0 (ts.cmaxEq k) else ts.cmaxEq k) -
            (if ts.admEq k then min 0 (ts.cminEq k) else ts.cminEq k)) with
      | none => exact absurd hopt hne
      | some d =>
        obtain ⟨⟨k0, hk0, hsel0, hf0⟩, hmin⟩ := optMinFilter_spec _ _ _ _ hopt
        refine ⟨k0, hk0, hsel0, ?_, ?_⟩
        · simp only [TRState.reducePenaltyCoefficients, if_pos hpos, hopt]
          rw [← hf0]
          simp only [if_pos hsel0]
        · intro j hj hadmj
          have hle := hmin j hj hadmj
          rw [← hf0] at hle
          simp only [if_pos hsel0, if_pos hadmj] at hle
          exact hle
    · intro hall
      have hnone : optMinFilter ts.models.npt ts.admEq
          (fun k => (if ts.admEq k then max 0 (ts.cmaxEq k) else ts.cmaxEq k) -
            (if ts.admEq k then min 0 (ts.cminEq k) else ts.cminEq k)) = none :=
        (optMinFilter_eq_none_iff _ _ _).mpr hall
      simp only [TRState.reducePenaltyCoefficients, if_pos hpos, hnone]
  · intro h0
    simp only [TRState.reducePenaltyCoefficients, h0]
    norm_num

/-- Witness for C7 at the concrete state cexTR1: the inequality
penalty is positive, the problem has no inequality rows so no row is
admissible, and the reduction drives the coefficient to zero. -/
theorem spec_c7_witness : (cexTR1.reducePenaltyCoefficients).penub = 0 :=
  ((spec_c7_reduce_penalty cexTR1).1 (by norm_num [cexTR1])).2
    (by
      intro k hk
      norm_num [TRState.admUb, TRState.cminUb, TRState.cmaxUb, cexTR1, cexModels1,
        foldMin, foldMax])
/-- A shift of the origin by the zero vector leaves every component of
the Models state unchanged. -/
theorem Models.shiftOrigin_of_xopt_zero (st : ModelsState)
    (h : ∀ i, st.xpt st.kopt i = 0) : Models.shiftOrigin st = st := by
  ext <;> simp only [Models.shiftOrigin] <;>
    simp only [Quadratic.shiftInterpolationPoints, dotQ, h, mul_zero, zero_mul,
      sub_zero, add_zero, zero_add, Finset.sum_const_zero, zero_div, zero_sub,
      neg_zero, mul_comm] <;>
    try rfl
  rename_i k j
  by_cases hk : k < st.npt
  · simp [hk]
  · simp only [hk, if_false]
    rw [Nat.add_sub_cancel' (le_of_not_lt hk)]

/-- C8: shift_origin(delta) changes nothing when the squared norm of
the best point is below ten times the squared radius, so a shift is
performed only at or above that threshold; and the call is idempotent:
two consecutive calls with the same radius equal a single call. -/
theorem spec_c8_shift_origin (ts : TRState) (delta : ℚ) :
    (dotQ ts.models.n ts.models.xopt ts.models.xopt < 10 * delta ^ 2 →
      ts.shiftOrigin delta = ts) ∧
    (ts.shiftOrigin delta).shiftOrigin delta = ts.shiftOrigin delta := by
  constructor
  · intro hlt
    unfold TRState.shiftOrigin
    rw [if_neg (not_le.mpr hlt)]
  · by_cases htr : dotQ ts.models.n ts.models.xopt ts.models.xopt ≥ 10 * delta ^ 2
    · have h1 : ts.shiftOrigin delta =
          { ts with
            xbase := fun i => ts.xbase i + ts.models.xopt i
            models := Models.shiftOrigin ts.models } := by
        unfold TRState.shiftOrigin
        rw [if_pos htr]
      have hxz : ∀ i,
          (Models.shiftOrigin ts.models).xpt (Models.shiftOrigin ts.models).kopt i = 0 := by
        intro i
        simp [Models.shiftOrigin, ModelsState.xopt]
      rw [h1]
      unfold TRState.shiftOrigin
      by_cases h2 : dotQ (Models.shiftOrigin ts.models).n
          (ModelsState.xopt (Models.shiftOrigin ts.models))
          (ModelsState.xopt (Models.shiftOrigin ts.models)) ≥ 10 * delta ^ 2
      · rw [if_pos h2]
        have hms := Models.shiftOrigin_of_xopt_zero (Models.shiftOrigin ts.models) hxz
        ext <;> simp [hms, ModelsState.xopt, hxz]
      · rw [if_neg h2]
    · have h1 : ts.shiftOrigin delta = ts := by
        unfold TRState.shiftOrigin
        rw [if_neg htr]
      rw [h1]
      exact h1

/-- Witness for C8: at the concrete state the best point is the
origin, so no radius below the threshold triggers a shift. -/
theorem spec_c8_witness : cexTR1.shiftOrigin 100 = cexTR1 :=
  (spec_c8_shift_origin cexTR1 100).1
    (by norm_num [dotQ, cexTR1, cexModels1, ModelsState.xopt, Finset.sum_range_succ])
/-- Core algebraic fact of the origin shift: evaluating the quadratic
whose explicit Hessian received the symmetrized outer-product
correction on the translated point set at the translated argument
reproduces the original value exactly. -/
theorem Quadratic.shiftInterpolationPoints_eval (n npt : ℕ) (q : Quadratic)
    (xptM : ℕ → ℕ → ℚ) (kopt : ℕ) (y : ℕ → ℚ) :
    (q.shiftInterpolationPoints n npt xptM kopt).eval n npt
        (fun i => y i - xptM kopt i) (fun k i => xptM k i - xptM kopt i) kopt =
      q.eval n npt y xptM kopt := by
  unfold Quadratic.eval Quadratic.shiftInterpolationPoints dotQ
  dsimp only
  simp only [sub_self, sub_zero]
  -- scalar abbreviations: a k, b, the pq-weighted sums S and P, and
  -- the column weights C i of the correction
  have hinner : ∀ k, (∑ i ∈ Finset.range n,
        (xptM k i - xptM kopt i) * (y i - xptM kopt i)) =
      (∑ i ∈ Finset.range n, xptM k i * (y i - xptM kopt i)) -
        ∑ i ∈ Finset.range n, xptM kopt i * (y i - xptM kopt i) := by
    intro k
    rw [← Finset.sum_sub_distrib]
    exact Finset.sum_congr rfl fun i _ => by ring
  have hhalf : ∀ k, (∑ i ∈ Finset.range n,
        (xptM k i - 1 / 2 * xptM kopt i) * (y i - xptM kopt i)) =
      (∑ i ∈ Finset.range n, xptM k i * (y i - xptM kopt i)) -
        1 / 2 * ∑ i ∈ Finset.range n, xptM kopt i * (y i - xptM kopt i) := by
    intro k
    rw [Finset.mul_sum, ← Finset.sum_sub_distrib]
    exact Finset.sum_congr rfl fun i _ => by ring
  have e1 : (∑ k ∈ Finset.range npt, q.pq k *
        (∑ i ∈ Finset.range n, (xptM k i - xptM kopt i) * (y i - xptM kopt i)) ^ 2) =
      (∑ k ∈ Finset.range npt, q.pq k *
        (∑ i ∈ Finset.range n, xptM k i * (y i - xptM kopt i)) ^ 2) -
      2 * (∑ i ∈ Finset.range n, xptM kopt i * (y i - xptM kopt i)) *
        (∑ k ∈ Finset.range npt, q.pq k *
          (∑ i ∈ Finset.range n, xptM k i * (y i - xptM kopt i))) +
      (∑ i ∈ Finset.range n, xptM kopt i * (y i - xptM kopt i)) ^ 2 *
        (∑ k ∈ Finset.range npt, q.pq k) := by
    rw [show (∑ k ∈ Finset.range npt, q.pq k *
        (∑ i ∈ Finset.range n, (xptM k i - xptM kopt i) * (y i - xptM kopt i)) ^ 2) =
        ∑ k ∈ Finset.range npt,
          (q.pq k * (∑ i ∈ Finset.range n, xptM k i * (y i - xptM kopt i)) ^ 2 -
            2 * (∑ i ∈ Finset.range n, xptM kopt i * (y i - xptM kopt i)) *
              (q.pq k * (∑ i ∈ Finset.range n, xptM k i * (y i - xptM kopt i))) +
            (∑ i ∈ Finset.range n, xptM kopt i * (y i - xptM kopt i)) ^ 2 * q.pq k)
      from Finset.sum_congr rfl fun k _ => by rw [hinner k]; ring]
    rw [Finset.sum_add_distrib, Finset.sum_sub_distrib, ← Finset.mul_sum, ← Finset.mul_sum]
  -- the two correction pieces of the Hessian form
  have hCrow : ∀ i, (∑ j ∈ Finset.range n,
        ((∑ k ∈ Finset.range npt, (xptM k i - 1 / 2 * xptM kopt i) * q.pq k) *
          xptM kopt j) * (y j - xptM kopt j)) =
      (∑ k ∈ Finset.range npt, (xptM k i - 1 / 2 * xptM kopt i) * q.pq k) *
        ∑ j ∈ Finset.range n, xptM kopt j * (y j - xptM kopt j) := by
    intro i
    rw [Finset.mul_sum]
    exact Finset.sum_congr rfl fun j _ => by ring
  have hCcol : ∀ i, (∑ j ∈ Finset.range n,
        ((∑ k ∈ Finset.range npt, (xptM k j - 1 / 2 * xptM kopt j) * q.pq k) *
          xptM kopt i) * (y j - xptM kopt j)) =
      xptM kopt i * ∑ j ∈ Finset.range n,
        (∑ k ∈ Finset.range npt, (xptM k j - 1 / 2 * xptM kopt j) * q.pq k) *
          (y j - xptM kopt j) := by
    intro i
    rw [Finset.mul_sum]
    exact Finset.sum_congr rfl fun j _ => by ring
  have hD : (∑ j ∈ Finset.range n,
        (∑ k ∈ Finset.range npt, (xptM k j - 1 / 2 * xptM kopt j) * q.pq k) *
          (y j - xptM kopt j)) =
      (∑ k ∈ Finset.range npt, q.pq k *
        (∑ i ∈ Finset.range n, xptM k i * (y i - xptM kopt i))) -
      1 / 2 * (∑ i ∈ Finset.range n, xptM kopt i * (y i - xptM kopt i)) *
        (∑ k ∈ Finset.range npt, q.pq k) := by
    rw [show (∑ j ∈ Finset.range n,
        (∑ k ∈ Finset.range npt, (xptM k j - 1 / 2 * xptM kopt j) * q.pq k) *
          (y j - xptM kopt j)) =
        ∑ j ∈ Finset.range n, ∑ k ∈ Finset.range npt,
          ((xptM k j - 1 / 2 * xptM kopt j) * q.pq k) * (y j - xptM kopt j)
      from Finset.sum_congr rfl fun j _ => Finset.sum_mul _ _ _]
    rw [Finset.sum_comm]
    rw [show (∑ k ∈ Finset.range npt, ∑ j ∈ Finset.range n,
        ((xptM k j - 1 / 2 * xptM kopt j) * q.pq k) * (y j - xptM kopt j)) =
        ∑ k ∈ Finset.range npt,
          (q.pq k * (∑ i ∈ Finset.range n, xptM k i * (y i - xptM kopt i)) -
            1 / 2 * (∑ i ∈ Finset.range n, xptM kopt i * (y i - xptM kopt i)) * q.pq k)
      from Finset.sum_congr rfl fun k _ => ?_]
    · rw [Finset.sum_sub_distrib, ← Finset.mul_sum]
    · rw [show (∑ j ∈ Finset.range n,
          ((xptM k j - 1 / 2 * xptM kopt j) * q.pq k) * (y j - xptM kopt j)) =
          q.pq k * ∑ j ∈ Finset.range n,
            (xptM k j - 1 / 2 * xptM kopt j) * (y j - xptM kopt j)
        from by rw [Finset.mul_sum]; exact Finset.sum_congr rfl fun j _ => by ring]
      rw [hhalf k]
      ring
  have e2 : (∑ i ∈ Finset.range n, (y i - xptM kopt i) *
        ∑ j ∈ Finset.range n,
          (q.hq i j +
            (∑ k ∈ Finset.range npt, (xptM k i - 1 / 2 * xptM kopt i) * q.pq k) *
              xptM kopt j +
            (∑ k ∈ Finset.range npt, (xptM k j - 1 / 2 * xptM kopt j) * q.pq k) *
              xptM kopt i) * (y j - xptM kopt j)) =
      (∑ i ∈ Finset.range n, (y i - xptM kopt i) *
        ∑ j ∈ Finset.range n, q.hq i j * (y j - xptM kopt j)) +
      2 * (∑ i ∈ Finset.range n, xptM kopt i * (y i - xptM kopt i)) *
        ((∑ k ∈ Finset.range npt, q.pq k *
          (∑ i ∈ Finset.range n, xptM k i * (y i - xptM kopt i))) -
        1 / 2 * (∑ i ∈ Finset.range n, xptM kopt i * (y i - xptM kopt i)) *
          (∑ k ∈ Finset.range npt, q.pq k)) := by
    rw [show (∑ i ∈ Finset.range n, (y i - xptM kopt i) *
        ∑ j ∈ Finset.range n,
          (q.hq i j +
            (∑ k ∈ Finset.range npt, (xptM k i - 1 / 2 * xptM kopt i) * q.pq k) *
              xptM kopt j +
            (∑ k ∈ Finset.range npt, (xptM k j - 1 / 2 * xptM kopt j) * q.pq k) *
              xptM kopt i) * (y j - xptM kopt j)) =
        ∑ i ∈ Finset.range n,
          ((y i - xptM kopt i) * ∑ j ∈ Finset.range n, q.hq i j * (y j - xptM kopt j) +
           (y i - xptM kopt i) *
             ((∑ k ∈ Finset.range npt, (xptM k i - 1 / 2 * xptM kopt i) * q.pq k) *
               ∑ j ∈ Finset.range n, xptM kopt j * (y j - xptM kopt j)) +
           (y i - xptM kopt i) *
             (xptM kopt i * ∑ j ∈ Finset.range n,
               (∑ k ∈ Finset.range npt, (xptM k j - 1 / 2 * xptM kopt j) * q.pq k) *
                 (y j - xptM kopt j)))
      from Finset.sum_congr rfl fun i _ => ?_]
    · rw [Finset.sum_add_distrib, Finset.sum_add_distrib]
      have hmid : (∑ i ∈ Finset.range n, (y i - xptM kopt i) *
          ((∑ k ∈ Finset.range npt, (xptM k i - 1 / 2 * xptM kopt i) * q.pq k) *
            ∑ j ∈ Finset.range n, xptM kopt j * (y j - xptM kopt j))) =
          (∑ j ∈ Finset.range n, xptM kopt j * (y j - xptM kopt j)) *
            ∑ j ∈ Finset.range n,
              (∑ k ∈ Finset.range npt, (xptM k j - 1 / 2 * xptM kopt j) * q.pq k) *
                (y j - xptM kopt j) := by
        rw [Finset.mul_sum]
        exact Finset.sum_congr rfl fun i _ => by ring
      have hlast : (∑ i ∈ Finset.range n, (y i - xptM kopt i) *
          (xptM kopt i * ∑ j ∈ Finset.range n,
            (∑ k ∈ Finset.range npt, (xptM k j - 1 / 2 * xptM kopt j) * q.pq k) *
              (y j - xptM kopt j))) =
          (∑ i ∈ Finset.range n, xptM kopt i * (y i - xptM kopt i)) *
            ∑ j ∈ Finset.range n,
              (∑ k ∈ Finset.range npt, (xptM k j - 1 / 2 * xptM kopt j) * q.pq k) *
                (y j - xptM kopt j) := by
        rw [Finset.sum_mul]
        exact Finset.sum_congr rfl fun i _ => by ring
      rw [hmid, hlast, hD]
      ring
    · rw [show (∑ j ∈ Finset.range n,
          (q.hq i j +
            (∑ k ∈ Finset.range npt, (xptM k i - 1 / 2 * xptM kopt i) * q.pq k) *
              xptM kopt j +
            (∑ k ∈ Finset.range npt, (xptM k j - 1 / 2 * xptM kopt j) * q.pq k) *
              xptM kopt i) * (y j - xptM kopt j)) =
          (∑ j ∈ Finset.range n, q.hq i j * (y j - xptM kopt j)) +
          (∑ j ∈ Finset.range n,
            ((∑ k ∈ Finset.range npt, (xptM k i - 1 / 2 * xptM kopt i) * q.pq k) *
              xptM kopt j) * (y j - xptM kopt j)) +
          ∑ j ∈ Finset.range n,
            ((∑ k ∈ Finset.range npt, (xptM k j - 1 / 2 * xptM kopt j) * q.pq k) *
              xptM kopt i) * (y j - xptM kopt j)
        from by
          rw [← Finset.sum_add_distrib, ← Finset.sum_add_distrib]
          exact Finset.sum_congr rfl fun j _ => by ring]
      rw [hCrow i, hCcol i]
      ring
  rw [e1, e2]
  ring

/-- Value of an origin-shifted quadratic over the translated point set
at a translated argument: specialization of the core shift lemma to
the point set stored by Models.shift_origin. -/
theorem Models.shiftOrigin_eval_quad (st : ModelsState) (qq : Quadratic) (y : ℕ → ℚ) :
    (qq.shiftInterpolationPoints st.n st.npt st.xpt st.kopt).eval st.n st.npt
        (fun i => y i - st.xpt st.kopt i) (Models.shiftOrigin st).xpt st.kopt =
      qq.eval st.n st.npt y st.xpt st.kopt := by
  have h2 : (Models.shiftOrigin st).xpt = fun k i => st.xpt k i - st.xpt st.kopt i := rfl
  rw [h2]
  exact Quadratic.shiftInterpolationPoints_eval st.n st.npt qq st.xpt st.kopt y

/-- C3: origin-shift invariance of every model value.  For any radius
and candidate point x, the value of the objective model, of the
alternative objective model, and of every nonlinear constraint model
and alternative constraint model at x expressed in the shifted frame
(displacement from the updated origin) equals its value at x in the
previous frame, exactly over the rationals. -/
theorem spec_c3_origin_shift_invariance (ts : TRState) (delta : ℚ) (x : ℕ → ℚ) :
    ModelsState.objVal (ts.shiftOrigin delta).models
        (fun i => x i - (ts.shiftOrigin delta).xbase i) =
      ModelsState.objVal ts.models (fun i => x i - ts.xbase i) ∧
    ModelsState.objAltVal (ts.shiftOrigin delta).models
        (fun i => x i - (ts.shiftOrigin delta).xbase i) =
      ModelsState.objAltVal ts.models (fun i => x i - ts.xbase i) ∧
    (∀ ic, ModelsState.cubVal (ts.shiftOrigin delta).models ic
        (fun i => x i - (ts.shiftOrigin delta).xbase i) =
      ModelsState.cubVal ts.models ic (fun i => x i - ts.xbase i)) ∧
    (∀ ic, ModelsState.cubAltVal (ts.shiftOrigin delta).models ic
        (fun i => x i - (ts.shiftOrigin delta).xbase i) =
      ModelsState.cubAltVal ts.models ic (fun i => x i - ts.xbase i)) ∧
    (∀ ic, ModelsState.ceqVal (ts.shiftOrigin delta).models ic
        (fun i => x i - (ts.shiftOrigin delta).xbase i) =
      ModelsState.ceqVal ts.models ic (fun i => x i - ts.xbase i)) ∧
    (∀ ic, ModelsState.ceqAltVal (ts.shiftOrigin delta).models ic
        (fun i => x i - (ts.shiftOrigin delta).xbase i) =
      ModelsState.ceqAltVal ts.models ic (fun i => x i - ts.xbase i)) := by
  by_cases htr : dotQ ts.models.n ts.models.xopt ts.models.xopt ≥ 10 * delta ^ 2
  · have hts : ts.shiftOrigin delta =
        { ts with
          xbase := fun i => ts.xbase i + ts.models.xopt i
          models := Models.shiftOrigin ts.models } := by
      unfold TRState.shiftOrigin
      rw [if_pos htr]
    rw [hts]
    have harg : (fun i => x i - (ts.xbase i + ts.models.xopt i)) =
        fun i => (x i - ts.xbase i) - ts.models.xpt ts.models.kopt i := by
      funext i
      simp [ModelsState.xopt]
      ring
    refine ⟨?_, ?_, fun ic => ?_, fun ic => ?_, fun ic => ?_, fun ic => ?_⟩
    · show ModelsState.objVal (Models.shiftOrigin ts.models) _ = _
      rw [harg]
      exact congrArg (fun t => ModelsState.fopt ts.models + t)
        (Models.shiftOrigin_eval_quad ts.models ts.models.obj
          (fun i => x i - ts.xbase i))
    · show ModelsState.objAltVal (Models.shiftOrigin ts.models) _ = _
      rw [harg]
      exact congrArg (fun t => ModelsState.fopt ts.models + t)
        (Models.shiftOrigin_eval_quad ts.models ts.models.objAlt
          (fun i => x i - ts.xbase i))
    · show ModelsState.cubVal (Models.shiftOrigin ts.models) ic _ = _
      rw [harg]
      exact congrArg (fun t => ModelsState.coptub ts.models ic + t)
        (Models.shiftOrigin_eval_quad ts.models (ts.models.cubQ ic)
          (fun i => x i - ts.xbase i))
    · show ModelsState.cubAltVal (Models.shiftOrigin ts.models) ic _ = _
      rw [harg]
      exact congrArg (fun t => ModelsState.coptub ts.models ic + t)
        (Models.shiftOrigin_eval_quad ts.models (ts.models.cubAltQ ic)
          (fun i => x i - ts.xbase i))
    · show ModelsState.ceqVal (Models.shiftOrigin ts.models) ic _ = _
      rw [harg]
      exact congrArg (fun t => ModelsState.copteq ts.models ic + t)
        (Models.shiftOrigin_eval_quad ts.models (ts.models.ceqQ ic)
          (fun i => x i - ts.xbase i))
    · show ModelsState.ceqAltVal (Models.shiftOrigin ts.models) ic _ = _
      rw [harg]
      exact congrArg (fun t => ModelsState.copteq ts.models ic + t)
        (Models.shiftOrigin_eval_quad ts.models (ts.models.ceqAltQ ic)
          (fun i => x i - ts.xbase i))
  · have hts : ts.shiftOrigin delta = ts := by
      unfold TRState.shiftOrigin
      rw [if_neg htr]
    rw [hts]
    exact ⟨rfl, rfl, fun _ => rfl, fun _ => rfl, fun _ => rfl, fun _ => rfl⟩
/-- State left behind by the raising swap update at cexModels1: only
the Z factor has been rotated. -/
def cexErr1 : ModelsState :=
  { cexModels1 with
    zmat := (givensLoop ratSqrt 3 cexModels1.idz cexModels1.mcols cexModels1.zmat).1 }

theorem cexBeta1 : (cexModels1.betaPair zeroVec).1 = 0 := by
  norm_num [ModelsState.betaPair, ModelsState.xopt, ModelsState.mcols, dotQ,
    cexModels1, zeroVec, Finset.sum_range_succ, Finset.sum_range_zero]

theorem cexTau1 : (cexModels1.betaPair zeroVec).2 3 = 0 := by
  norm_num [ModelsState.betaPair, ModelsState.xopt, ModelsState.mcols, dotQ,
    cexModels1, zeroVec, Finset.sum_range_succ, Finset.sum_range_zero]

theorem cexErr1_eq :
    Models.update ratSqrt cexModels1 zeroVec 0 zeroVec zeroVec (some 3) =
      .error cexErr1 := by
  simp only [Models.update, Option.getD_some, cexErr1]
  rw [if_pos]
  rw [cexBeta1, cexTau1]
  norm_num
  norm_num [tinyQ]

/-- C1 (amended): when Models.update raises the numeric breakdown, the
call leaves every part of the model state unchanged — the point set,
the value arrays, the residuals, the factor B, the counter idz, the
best index and every quadratic model — except the factor Z, which has
been transformed in place by the Givens zeroing rotations applied
before the test of the denominator sigma. -/
theorem spec_c1_amended (sq : ℚ → ℚ) (st : ModelsState) (step : ℕ → ℚ) (fx : ℚ)
    (cubx ceqx : ℕ → ℚ) (knewOpt : Option ℕ) (st' : ModelsState)
    (h : Models.update sq st step fx cubx ceqx knewOpt = .error st') :
    st'.n = st.n ∧ st'.npt = st.npt ∧
    st'.xl = st.xl ∧ st'.xu = st.xu ∧ st'.aub = st.aub ∧ st'.bub = st.bub ∧
    st'.aeq = st.aeq ∧ st'.beq = st.beq ∧
    st'.xpt = st.xpt ∧ st'.fval = st.fval ∧ st'.rval = st.rval ∧
    st'.cvalub = st.cvalub ∧ st'.cvaleq = st.cvaleq ∧
    st'.bmat = st.bmat ∧ st'.idz = st.idz ∧ st'.kopt = st.kopt ∧
    st'.obj = st.obj ∧ st'.objAlt = st.objAlt ∧
    st'.cubQ = st.cubQ ∧ st'.cubAltQ = st.cubAltQ ∧
    st'.ceqQ = st.ceqQ ∧ st'.ceqAltQ = st.ceqAltQ ∧
    st'.zmat = (givensLoop sq
      (knewOpt.getD (st.getPointToRemove (st.betaPair step).1 (st.betaPair step).2))
      st.idz st.mcols st.zmat).1 := by
  simp only [Models.update] at h
  rw [ite_eq_iff] at h
  rcases h with ⟨hc, h⟩ | ⟨hc, h⟩
  · simp only [Except.error.injEq] at h
    subst h
    refine ⟨rfl, rfl, rfl, rfl, rfl, rfl, rfl, rfl, rfl, rfl, rfl, rfl, rfl,
      rfl, rfl, rfl, rfl, rfl, rfl, rfl, rfl, rfl, rfl⟩
  · exact Except.noConfusion h

/-- Counterexample to C1 as stated: at the concrete state cexModels1
with the zero trial step and removal index 3, the swap update raises
the numeric breakdown, yet the entry (3, 1) of zmat — equal to 4 on
entry — has been zeroed by the Givens rotation before the raise, so
the call does not leave the state unchanged. -/
theorem spec_c1_counterexample :
    (errPart (Models.update ratSqrt cexModels1 zeroVec 0 zeroVec zeroVec
      (some 3))).map (fun s => s.zmat 3 1) = some 0 ∧
    cexModels1.zmat 3 1 = 4 := by
  constructor
  · rw [cexErr1_eq]
    show some (cexErr1.zmat 3 1) = some 0
    norm_num [cexErr1, givensLoop, givensIter, givensStep, cexModels1,
      ModelsState.mcols]
  · norm_num [cexModels1]

/-- Witness for C1 (amended) at the concrete raising instance: the
objective-value array is among the unchanged state components. -/
theorem spec_c1_witness : cexErr1.fval = cexModels1.fval :=
  (spec_c1_amended ratSqrt cexModels1 zeroVec 0 zeroVec zeroVec (some 3)
    cexErr1 cexErr1_eq).2.2.2.2.2.2.2.2.2.1
/-- A Givens rotation of columns j1 and j2 leaves every other column
unchanged. -/
theorem givensCols_other (sq : ℚ → ℚ) (M : ℕ → ℕ → ℚ) (c s : ℚ) (j1 j2 k l : ℕ)
    (h1 : l ≠ j1) (h2 : l ≠ j2) : givensCols sq M c s j1 j2 k l = M k l := by
  simp [givensCols, h1, h2]

/-- Pivot column after t steps of the zeroing loop: idz once the loop
has passed it, column 0 before that and when idz is 0. -/
theorem givensIter_snd (sq : ℚ → ℚ) (knew idz : ℕ) (Z : ℕ → ℕ → ℚ) (t : ℕ) :
    (givensIter sq knew idz Z t).2 = if 1 ≤ idz ∧ idz ≤ t then idz else 0 := by
  induction t with
  | zero =>
    simp only [givensIter]
    have : ¬ (1 ≤ idz ∧ idz ≤ 0) := by omega
    rw [if_neg this]
  | succ t ih =>
    show (givensStep sq knew idz (givensIter sq knew idz Z t) (t + 1)).2 = _
    unfold givensStep
    by_cases h : t + 1 = idz
    · rw [if_pos h]
      have : 1 ≤ idz ∧ idz ≤ t + 1 := by omega
      rw [if_pos this]
    · rw [if_neg h]
      have hcond : (1 ≤ idz ∧ idz ≤ t + 1) ↔ (1 ≤ idz ∧ idz ≤ t) := by omega
      by_cases h2 : (givensIter sq knew idz Z t).1 knew (t + 1) ≠ 0
      · rw [if_pos h2]
        show (givensIter sq knew idz Z t).2 = _
        rw [ih, if_congr hcond rfl rfl]
      · rw [if_neg h2, ih, if_congr hcond rfl rfl]

/-- The pivot column is always 0 or idz. -/
theorem givensIter_snd_mem (sq : ℚ → ℚ) (knew idz : ℕ) (Z : ℕ → ℕ → ℚ) (t : ℕ) :
    (givensIter sq knew idz Z t).2 = 0 ∨ (givensIter sq knew idz Z t).2 = idz := by
  rw [givensIter_snd]
  split_ifs <;> simp

/-- Row-zeroing invariant of the loop: after t steps every processed
column other than idz has a zero in row knew. -/
theorem givensIter_row_zero (sq : ℚ → ℚ) (knew idz : ℕ) (Z : ℕ → ℕ → ℚ) (t : ℕ) :
    ∀ j, 1 ≤ j → j ≤ t → j ≠ idz → (givensIter sq knew idz Z t).1 knew j = 0 := by
  induction t with
  | zero => intro j h1 h2 _; omega
  | succ t ih =>
    intro j h1 h2 hj
    show (givensStep sq knew idz (givensIter sq knew idz Z t) (t + 1)).1 knew j = 0
    unfold givensStep
    by_cases h : t + 1 = idz
    · rw [if_pos h]
      exact ih j h1 (by omega) hj
    · rw [if_neg h]
      by_cases h2' : (givensIter sq knew idz Z t).1 knew (t + 1) ≠ 0
      · rw [if_pos h2']
        by_cases hjt : j = t + 1
        · subst hjt
          simp
        · have hjle : j ≤ t := by omega
          have hne0 : j ≠ 0 := by omega
          have hzero := ih j h1 hjle hj
          dsimp only
          rw [if_neg (fun hc => hjt hc.2)]
          rw [givensCols_other sq _ _ _ _ _ _ _ hjt ?_]
          · exact hzero
          · rcases givensIter_snd_mem sq knew idz Z t with hm | hm
            · rw [hm]; exact hne0
            · rw [hm]; exact hj
      · rw [if_neg h2']
        by_cases hjt : j = t + 1
        · subst hjt
          push_neg at h2'
          exact h2'
        · exact ih j h1 (by omega) hj

/-- After the zeroing loop, the quantity scala z0 + scalb zjdz read off
by the update equals the knew-th diagonal entry of Z J Z^T for the
rotated factor Z: row knew of that factor is supported on columns 0
and idz, and the column signs follow the signature. -/
theorem givens_alpha_eq (sq : ℚ → ℚ) (st : ModelsState) (k : ℕ) (hm : 1 ≤ st.mcols) :
    ((if st.idz = 0 then (givensLoop sq k st.idz st.mcols st.zmat).1 k 0
        else -(givensLoop sq k st.idz st.mcols st.zmat).1 k 0) *
      (givensLoop sq k st.idz st.mcols st.zmat).1 k 0 +
    (if (givensLoop sq k st.idz st.mcols st.zmat).2 = 0 then 0
        else (givensLoop sq k st.idz st.mcols st.zmat).1 k
          (givensLoop sq k st.idz st.mcols st.zmat).2) *
      (givensLoop sq k st.idz st.mcols st.zmat).1 k
        (givensLoop sq k st.idz st.mcols st.zmat).2) =
    ∑ j ∈ Finset.range st.mcols, (if j < st.idz then (-1 : ℚ) else 1) *
      (givensLoop sq k st.idz st.mcols st.zmat).1 k j ^ 2 := by
  obtain ⟨m', hm'⟩ : ∃ m', st.mcols = m' + 1 := ⟨st.mcols - 1, by omega⟩
  have hloop : givensLoop sq k st.idz st.mcols st.zmat =
      givensIter sq k st.idz st.zmat m' := by
    unfold givensLoop
    rw [hm']
    simp
  have hsnd : (givensLoop sq k st.idz st.mcols st.zmat).2 =
      if 1 ≤ st.idz ∧ st.idz ≤ m' then st.idz else 0 := by
    rw [hloop, givensIter_snd]
  have hzero : ∀ i, i < m' → i + 1 ≠ st.idz →
      (givensLoop sq k st.idz st.mcols st.zmat).1 k (i + 1) = 0 := by
    intro i hi hne
    rw [hloop]
    exact givensIter_row_zero sq k st.idz st.zmat m' (i + 1) (by omega) (by omega) hne
  set Z' := (givensLoop sq k st.idz st.mcols st.zmat).1 with hZ
  by_cases hidz0 : st.idz = 0
  · have hjdz : (givensLoop sq k st.idz st.mcols st.zmat).2 = 0 := by
      rw [hsnd, if_neg (by omega)]
    rw [if_pos hidz0, hjdz, if_pos rfl]
    rw [hm', Finset.sum_range_succ']
    have hsum : (∑ i ∈ Finset.range m',
        (if i + 1 < st.idz then (-1 : ℚ) else 1) * Z' k (i + 1) ^ 2) = 0 :=
      Finset.sum_eq_zero fun i hi => by
        have hi' := Finset.mem_range.mp hi
        rw [hzero i hi' (by omega)]
        ring
    rw [hsum, if_neg (by omega)]
    ring
  · by_cases hle : st.idz ≤ m'
    · have hjdz : (givensLoop sq k st.idz st.mcols st.zmat).2 = st.idz := by
        rw [hsnd, if_pos ⟨by omega, hle⟩]
      rw [if_neg hidz0, hjdz, if_neg hidz0]
      rw [hm', Finset.sum_range_succ']
      have hsum : (∑ i ∈ Finset.range m',
          (if i + 1 < st.idz then (-1 : ℚ) else 1) * Z' k (i + 1) ^ 2) =
          Z' k st.idz ^ 2 := by
        rw [Finset.sum_eq_single_of_mem (st.idz - 1)
          (Finset.mem_range.mpr (by omega : st.idz - 1 < m'))]
        · have hi1 : st.idz - 1 + 1 = st.idz := by omega
          rw [hi1, if_neg (by omega)]
          ring
        · intro i hi hne
          have hi' := Finset.mem_range.mp hi
          rw [hzero i hi' (by omega)]
          ring
      rw [hsum, if_pos (by omega)]
      ring
    · have hjdz : (givensLoop sq k st.idz st.mcols st.zmat).2 = 0 := by
        rw [hsnd, if_neg (by omega)]
      rw [if_neg hidz0, hjdz, if_pos rfl]
      rw [hm', Finset.sum_range_succ']
      have hsum : (∑ i ∈ Finset.range m',
          (if i + 1 < st.idz then (-1 : ℚ) else 1) * Z' k (i + 1) ^ 2) = 0 :=
        Finset.sum_eq_zero fun i hi => by
          have hi' := Finset.mem_range.mp hi
          rw [hzero i hi' (by omega)]
          ring
      rw [hsum, if_pos (by omega)]
      ring

/-- Denominator of the updating formula as the claim states it: alpha
is the knew-th diagonal entry of Z J Z^T for the Givens-rotated
factor, beta and tau come from Models._beta at the trial step. -/
def Models.breakdownSigma (sq : ℚ → ℚ) (st : ModelsState) (step : ℕ → ℚ)
    (k : ℕ) : ℚ :=
  (∑ j ∈ Finset.range st.mcols, (if j < st.idz then (-1 : ℚ) else 1) *
    (givensLoop sq k st.idz st.mcols st.zmat).1 k j ^ 2) * (st.betaPair step).1 +
  (st.betaPair step).2 k ^ 2

/-- Breakdown threshold of the code: tiny times the maximum of one and
of the largest absolute entries of the factors B and rotated Z (the
numpy maxima carry the keyword initial equal to one). -/
def Models.breakdownThreshold (sq : ℚ → ℚ) (st : ModelsState) (k : ℕ) : ℚ :=
  tinyQ * max 1 (max (matAbsMax (st.npt + st.n) st.n st.bmat)
    (matAbsMax st.npt st.mcols (givensLoop sq k st.idz st.mcols st.zmat).1))

/-- Breakdown threshold as the claim words it, without the unit
floor: tiny times the largest absolute entry of B and of rotated Z. -/
def Models.breakdownThresholdClaim (sq : ℚ → ℚ) (st : ModelsState) (k : ℕ) : ℚ :=
  tinyQ * max (matAbsMax (st.npt + st.n) st.n st.bmat)
    (matAbsMax st.npt st.mcols (givensLoop sq k st.idz st.mcols st.zmat).1)

/-- C2 (amended): with the removal index supplied, the swap update
raises the numeric breakdown exactly when the absolute denominator
sigma = alpha beta + tau^2 — alpha the knew-th diagonal entry of
Z J Z^T after the Givens zeroing, tau the knew-th Lagrange value —
falls below tiny times the maximum of ONE and of the largest absolute
entries of bmat and of the rotated zmat (the code floors both matrix
norms at one); otherwise the update completes and returns knew. -/
theorem spec_c2_amended (sq : ℚ → ℚ) (st : ModelsState) (step : ℕ → ℚ) (fx : ℚ)
    (cubx ceqx : ℕ → ℚ) (k : ℕ) (hnpt : st.n + 2 ≤ st.npt) :
    ((∃ st', Models.update sq st step fx cubx ceqx (some k) = .error st') ↔
      |Models.breakdownSigma sq st step k| < Models.breakdownThreshold sq st k) ∧
    (¬ |Models.breakdownSigma sq st step k| < Models.breakdownThreshold sq st k →
      (okPart (Models.update sq st step fx cubx ceqx (some k))).map Prod.snd =
        some k) := by
  have hm : 1 ≤ st.mcols := by
    unfold ModelsState.mcols
    omega
  have halpha := givens_alpha_eq sq st k hm
  constructor
  · constructor
    · rintro ⟨st', h⟩
      simp only [Models.update, Option.getD_some] at h
      rw [ite_eq_iff] at h
      rcases h with ⟨hc, _⟩ | ⟨_, h⟩
      · rw [halpha] at hc
        rw [max_max_max_comm, max_self] at hc
        exact hc
      · exact Except.noConfusion h
    · intro hlt
      have hupd : Models.update sq st step fx cubx ceqx (some k) =
          .error { st with zmat := (givensLoop sq k st.idz st.mcols st.zmat).1 } := by
        simp only [Models.update, Option.getD_some]
        rw [if_pos]
        rw [halpha]
        rw [max_max_max_comm, max_self]
        exact hlt
      exact ⟨_, hupd⟩
  · intro hnlt
    cases hupd : Models.update sq st step fx cubx ceqx (some k) with
    | error st' =>
      exfalso
      simp only [Models.update, Option.getD_some] at hupd
      rw [ite_eq_iff] at hupd
      rcases hupd with ⟨hc, _⟩ | ⟨_, h⟩
      · rw [halpha] at hc
        rw [max_max_max_comm, max_self] at hc
        exact hnlt hc
      · exact Except.noConfusion h
    | ok pr =>
      have hupd2 := hupd
      simp only [Models.update, Option.getD_some] at hupd
      rw [ite_eq_iff] at hupd
      rcases hupd with ⟨hc, _⟩ | ⟨_, h⟩
      · exfalso
        rw [halpha] at hc
        rw [max_max_max_comm, max_self] at hc
        exact hnlt hc
      · simp only [Except.ok.injEq] at h
        subst h
        rfl
theorem cexZrot2_eq :
    givensLoop ratSqrt 3 cexModels2.idz cexModels2.mcols cexModels2.zmat =
      (cexModels2.zmat, 0) := by
  unfold givensLoop
  have hm : cexModels2.mcols - 1 = 1 := by
    norm_num [ModelsState.mcols, cexModels2]
  rw [hm]
  show givensStep ratSqrt 3 cexModels2.idz
    (givensIter ratSqrt 3 cexModels2.idz cexModels2.zmat 0) 1 = _
  unfold givensIter givensStep
  rw [if_neg (by norm_num [cexModels2] : ¬ ((1:ℕ) = cexModels2.idz))]
  rw [if_neg (by norm_num [cexModels2] :
    ¬ (((cexModels2.zmat, (0:ℕ)).1 3 1 ≠ 0)))]

theorem cexBeta2 : (cexModels2.betaPair cexStep2).1 = 1 / 2 ^ (513 : ℕ) := by
  norm_num [ModelsState.betaPair, ModelsState.xopt, ModelsState.mcols, dotQ,
    cexModels2, cexStep2, Finset.sum_range_succ, Finset.sum_range_zero]

theorem cexTau2 : (cexModels2.betaPair cexStep2).2 3 = 0 := by
  norm_num [ModelsState.betaPair, ModelsState.xopt, ModelsState.mcols, dotQ,
    cexModels2, cexStep2, Finset.sum_range_succ, Finset.sum_range_zero]

theorem cexSigma2 :
    Models.breakdownSigma ratSqrt cexModels2 cexStep2 3 = 1 / 2 ^ (1023 : ℕ) := by
  unfold Models.breakdownSigma
  rw [cexZrot2_eq, cexBeta2, cexTau2]
  norm_num [ModelsState.mcols, cexModels2, Finset.sum_range_succ,
    Finset.sum_range_zero]

theorem cexThreshClaim2 :
    Models.breakdownThresholdClaim ratSqrt cexModels2 3 = 1 / 2 ^ (1023 : ℕ) := by
  unfold Models.breakdownThresholdClaim
  rw [cexZrot2_eq]
  norm_num [matAbsMax, foldMax, ModelsState.mcols, cexModels2, tinyQ, abs,
    max_def]

theorem cexErr2_eq :
    Models.update ratSqrt cexModels2 cexStep2 0 zeroVec zeroVec (some 3) =
      .error cexModels2 := by
  simp only [Models.update, Option.getD_some]
  rw [cexZrot2_eq]
  rw [if_pos]
  rw [cexBeta2, cexTau2]
  norm_num [ModelsState.mcols, cexModels2, Finset.sum_range_succ,
    Finset.sum_range_zero, matAbsMax, foldMax, tinyQ, abs, max_def]

/-- C2 counterexample: on cexModels2 with the tiny step, the code raises
the numeric breakdown (the implementation floors the scaling factor at
one), yet the claim's unfloored threshold does not exceed the denominator
sigma, so the claim predicts no raise. -/
theorem spec_c2_counterexample :
    (errPart (Models.update ratSqrt cexModels2 cexStep2 0 zeroVec zeroVec
      (some 3))).isSome = true ∧
    ¬ |Models.breakdownSigma ratSqrt cexModels2 cexStep2 3| <
        Models.breakdownThresholdClaim ratSqrt cexModels2 3 := by
  refine ⟨by rw [cexErr2_eq]; rfl, ?_⟩
  rw [cexSigma2, cexThreshClaim2]
  norm_num [abs]

/-- C2 witness: the amended raise characterisation instantiated at the
concrete state cexModels2, its dimension hypothesis discharged there. -/
theorem spec_c2_witness :
    cexModels2.n + 2 ≤ cexModels2.npt ∧
    ((∃ st', Models.update ratSqrt cexModels2 cexStep2 0 zeroVec zeroVec
        (some 3) = .error st') ↔
      |Models.breakdownSigma ratSqrt cexModels2 cexStep2 3| <
        Models.breakdownThreshold ratSqrt cexModels2 3) :=
  ⟨by decide, (spec_c2_amended ratSqrt cexModels2 cexStep2 0 zeroVec zeroVec 3
    (by decide)).1⟩

/-- Modelled from the spec: the selection rule as claim C4 words it —
among the line step and the constrained Cauchy step, return the one
whose (beta, vlag) values yield the larger absolute denominator
|vlag[klag]^2 + alpha beta| of the updating formula. -/
def Models.claimedGeometryPick (st : ModelsState) (klag : ℕ)
    (lineStep salt : ℕ → ℚ) : ℕ → ℚ :=
  if |Models.denomAt st klag lineStep| < |Models.denomAt st klag salt| then salt
  else lineStep

/-- Concrete state for the geometry-step selection: one variable, four
points on a line, a single nonzero entry 20 in the factor Z placed in
the column of negative sign (idz = 1), so that the line step has a
large negative denominator sigma. -/
def cexModels4 : ModelsState :=
  { n := 1, npt := 4, mlub := 0, mnlub := 0, mleq := 0, mnleq := 0
    xl := fun _ => -1000, xu := fun _ => 1000
    aub := fun _ _ => 0, bub := fun _ => 0, aeq := fun _ _ => 0, beq := fun _ => 0
    xpt := fun k i => if i = 0 then
      (if k = 1 then 1 else if k = 2 then -1 else if k = 3 then 2 else 0) else 0
    fval := fun _ => 0, rval := fun _ => 0
    cvalub := fun _ _ => 0, cvaleq := fun _ _ => 0
    bmat := fun _ _ => 0
    zmat := fun k j => if j = 0 ∧ k = 3 then 20 else 0
    idz := 1, kopt := 0
    obj := zeroQuad, objAlt := zeroQuad
    cubQ := fun _ => zeroQuad, cubAltQ := fun _ => zeroQuad
    ceqQ := fun _ => zeroQuad, ceqAltQ := fun _ => zeroQuad }

/-- Unit line step paired with cexModels4. -/
def cexLine4 : ℕ → ℚ := fun _ => 1

theorem cexDenomLine4 : Models.denomAt cexModels4 3 cexLine4 = -200 := by
  norm_num [Models.denomAt, omegaProduct, indicatorV, ModelsState.betaPair,
    ModelsState.xopt, ModelsState.mcols, dotQ, cexModels4, cexLine4,
    Finset.sum_range_succ, Finset.sum_range_zero]

theorem cexDenomSalt4 : Models.denomAt cexModels4 3 zeroVec = 0 := by
  norm_num [Models.denomAt, omegaProduct, indicatorV, ModelsState.betaPair,
    ModelsState.xopt, ModelsState.mcols, dotQ, cexModels4, zeroVec,
    Finset.sum_range_succ, Finset.sum_range_zero]

/-- C4 (amended): improve_geometry always returns one of the two
candidate steps, and it returns the Cauchy step exactly when the SIGNED
denominator sigma of the line step is smaller than the oracle value
cauchy and cauchy clears the relative tolerance; the absolute
denominator of the Cauchy step itself is never consulted. -/
theorem spec_c4_amended (st : ModelsState) (klag : ℕ) (lineStep salt : ℕ → ℚ)
    (cauchy : ℚ) :
    (Models.improveGeometry st klag lineStep salt cauchy = salt ∨
      Models.improveGeometry st klag lineStep salt cauchy = lineStep) ∧
    ((Models.denomAt st klag lineStep < cauchy ∧
      cauchy > 10 * epsQ * (st.npt : ℚ) * max 1 |Models.denomAt st klag lineStep|) →
      Models.improveGeometry st klag lineStep salt cauchy = salt) ∧
    (¬ (Models.denomAt st klag lineStep < cauchy ∧
      cauchy > 10 * epsQ * (st.npt : ℚ) * max 1 |Models.denomAt st klag lineStep|) →
      Models.improveGeometry st klag lineStep salt cauchy = lineStep) := by
  simp only [Models.improveGeometry]
  constructor
  · split_ifs with h
    · exact Or.inl rfl
    · exact Or.inr rfl
  constructor
  · intro h
    rw [if_pos h]
  · intro h
    rw [if_neg h]

/-- C4 counterexample: on cexModels4 the code returns the Cauchy step
(the zero step, of denominator 0) although the line step has the larger
absolute denominator 200, because the code compares the signed sigma of
the line step with the oracle value cauchy instead of comparing the two
absolute denominators. -/
theorem spec_c4_counterexample :
    Models.improveGeometry cexModels4 3 cexLine4 zeroVec 1 = zeroVec ∧
    Models.claimedGeometryPick cexModels4 3 cexLine4 zeroVec = cexLine4 ∧
    zeroVec 0 ≠ cexLine4 0 := by
  refine ⟨?_, ?_, by norm_num [zeroVec, cexLine4]⟩
  · simp only [Models.improveGeometry]
    rw [if_pos]
    rw [cexDenomLine4]
    norm_num [cexModels4, epsQ]
  · unfold Models.claimedGeometryPick
    rw [cexDenomLine4, cexDenomSalt4]
    norm_num

/-- C4 witness: the amended selection rule applied at the concrete state
cexModels4, its tolerance hypothesis discharged there. -/
theorem spec_c4_witness :
    (Models.denomAt cexModels4 3 cexLine4 < 1 ∧
      (1 : ℚ) > 10 * epsQ * (cexModels4.npt : ℚ) *
        max 1 |Models.denomAt cexModels4 3 cexLine4|) ∧
    Models.improveGeometry cexModels4 3 cexLine4 zeroVec 1 = zeroVec := by
  have h : Models.denomAt cexModels4 3 cexLine4 < 1 ∧
      (1 : ℚ) > 10 * epsQ * (cexModels4.npt : ℚ) *
        max 1 |Models.denomAt cexModels4 3 cexLine4| := by
    rw [cexDenomLine4]
    norm_num [cexModels4, epsQ]
  exact ⟨h, (spec_c4_amended cexModels4 3 cexLine4 zeroVec 1).2.1 h⟩

theorem dotQ_comm (n : ℕ) (a b : ℕ → ℚ) : dotQ n a b = dotQ n b a := by
  unfold dotQ
  exact Finset.sum_congr rfl fun i _ => mul_comm _ _

theorem dotQ_add_left (n : ℕ) (a b v : ℕ → ℚ) :
    dotQ n (fun i => a i + b i) v = dotQ n a v + dotQ n b v := by
  unfold dotQ
  rw [← Finset.sum_add_distrib]
  exact Finset.sum_congr rfl fun i _ => add_mul _ _ _

theorem dotQ_add_right (n : ℕ) (v a b : ℕ → ℚ) :
    dotQ n v (fun i => a i + b i) = dotQ n v a + dotQ n v b := by
  unfold dotQ
  rw [← Finset.sum_add_distrib]
  exact Finset.sum_congr rfl fun i _ => mul_add _ _ _

theorem hessp_add (n npt : ℕ) (q : Quadratic) (a b : ℕ → ℚ)
    (xptM : ℕ → ℕ → ℚ) :
    Quadratic.hessp n npt q (fun i => a i + b i) xptM =
      fun i => Quadratic.hessp n npt q a xptM i +
        Quadratic.hessp n npt q b xptM i := by
  funext i
  unfold Quadratic.hessp
  dsimp only
  rw [show (∑ k ∈ Finset.range npt,
        xptM k i * (q.pq k * dotQ n (xptM k) (fun l => a l + b l))) =
      ∑ k ∈ Finset.range npt,
        (xptM k i * (q.pq k * dotQ n (xptM k) a) +
          xptM k i * (q.pq k * dotQ n (xptM k) b)) from
    Finset.sum_congr rfl fun k _ => by rw [dotQ_add_right]; ring]
  rw [Finset.sum_add_distrib]
  rw [show (∑ j ∈ Finset.range n, q.hq i j * (a j + b j)) =
      ∑ j ∈ Finset.range n, (q.hq i j * a j + q.hq i j * b j) from
    Finset.sum_congr rfl fun j _ => mul_add _ _ _]
  rw [Finset.sum_add_distrib]
  ring

theorem dotQ_hessp_symm (n npt : ℕ) (q : Quadratic) (xptM : ℕ → ℕ → ℚ)
    (hsym : ∀ i j, q.hq i j = q.hq j i) (a b : ℕ → ℚ) :
    dotQ n a (Quadratic.hessp n npt q b xptM) =
      dotQ n b (Quadratic.hessp n npt q a xptM) := by
  unfold dotQ Quadratic.hessp
  simp only [mul_add, Finset.mul_sum, Finset.sum_add_distrib]
  congr 1
  · have hform : ∀ (u v : ℕ → ℚ), (∑ k ∈ Finset.range npt, ∑ i ∈ Finset.range n,
        u i * (xptM k i * (q.pq k * dotQ n (xptM k) v))) =
        ∑ k ∈ Finset.range npt,
          q.pq k * (dotQ n (xptM k) u * dotQ n (xptM k) v) := by
      intro u v
      apply Finset.sum_congr rfl
      intro k _
      have hc : ∀ c : ℚ, (∑ i ∈ Finset.range n, u i * (xptM k i * c)) =
          (∑ i ∈ Finset.range n, xptM k i * u i) * c := by
        intro c
        rw [Finset.sum_mul]
        exact Finset.sum_congr rfl fun i _ => by ring
      rw [hc (q.pq k * dotQ n (xptM k) v)]
      rw [show (∑ i ∈ Finset.range n, xptM k i * u i) = dotQ n (xptM k) u from rfl]
      ring
    conv_lhs => rw [Finset.sum_comm]
    conv_rhs => rw [Finset.sum_comm]
    rw [hform a b, hform b a]
    exact Finset.sum_congr rfl fun k _ => by ring
  · rw [Finset.sum_comm]
    apply Finset.sum_congr rfl
    intro i _
    apply Finset.sum_congr rfl
    intro j _
    rw [hsym i j]
    ring

theorem dotQ_hessp_expand (n npt : ℕ) (q : Quadratic) (xptM : ℕ → ℕ → ℚ)
    (u v : ℕ → ℚ) :
    dotQ n u (Quadratic.hessp n npt q v xptM) =
      (∑ k ∈ Finset.range npt,
        q.pq k * (dotQ n (xptM k) u * dotQ n (xptM k) v)) +
        ∑ i ∈ Finset.range n, ∑ j ∈ Finset.range n, u i * (q.hq i j * v j) := by
  unfold Quadratic.hessp dotQ
  rw [show (∑ i ∈ Finset.range n, u i *
        ((∑ k ∈ Finset.range npt, xptM k i *
          (q.pq k * ∑ l ∈ Finset.range n, xptM k l * v l)) +
          ∑ j ∈ Finset.range n, q.hq i j * v j)) =
      (∑ i ∈ Finset.range n, u i *
        ∑ k ∈ Finset.range npt, xptM k i *
          (q.pq k * ∑ l ∈ Finset.range n, xptM k l * v l)) +
        ∑ i ∈ Finset.range n, u i * ∑ j ∈ Finset.range n, q.hq i j * v j from by
    rw [← Finset.sum_add_distrib]
    exact Finset.sum_congr rfl fun i _ => mul_add _ _ _]
  congr 1
  · rw [show (∑ i ∈ Finset.range n, u i *
        ∑ k ∈ Finset.range npt, xptM k i *
          (q.pq k * ∑ l ∈ Finset.range n, xptM k l * v l)) =
      ∑ i ∈ Finset.range n, ∑ k ∈ Finset.range npt, u i * (xptM k i *
          (q.pq k * ∑ l ∈ Finset.range n, xptM k l * v l)) from
      Finset.sum_congr rfl fun i _ => Finset.mul_sum _ _ _]
    rw [Finset.sum_comm]
    apply Finset.sum_congr rfl
    intro k _
    have hc : ∀ c : ℚ, (∑ i ∈ Finset.range n, u i * (xptM k i * c)) =
        (∑ i ∈ Finset.range n, xptM k i * u i) * c := by
      intro c
      rw [Finset.sum_mul]
      exact Finset.sum_congr rfl fun i _ => by ring
    rw [hc (q.pq k * ∑ l ∈ Finset.range n, xptM k l * v l)]
    ring
  · exact Finset.sum_congr rfl fun i _ => Finset.mul_sum _ _ _

theorem Quadratic.eval_form (n npt : ℕ) (q : Quadratic) (x : ℕ → ℚ)
    (xptM : ℕ → ℕ → ℚ) (kopt : ℕ) :
    q.eval n npt x xptM kopt =
      dotQ n q.gq (fun i => x i - xptM kopt i) +
        1 / 2 * dotQ n (fun i => x i - xptM kopt i)
          (Quadratic.hessp n npt q (fun i => x i - xptM kopt i) xptM) := by
  unfold Quadratic.eval
  dsimp only
  rw [dotQ_hessp_expand]
  rw [show dotQ n (fun i => x i - xptM kopt i)
        (fun i => ∑ j ∈ Finset.range n, q.hq i j * (x j - xptM kopt j)) =
      ∑ i ∈ Finset.range n, ∑ j ∈ Finset.range n,
        (x i - xptM kopt i) * (q.hq i j * (x j - xptM kopt j)) from by
    unfold dotQ
    exact Finset.sum_congr rfl fun i _ => Finset.mul_sum _ _ _]
  rw [show (∑ k ∈ Finset.range npt, q.pq k *
        (dotQ n (xptM k) (fun i => x i - xptM kopt i) *
          dotQ n (xptM k) (fun i => x i - xptM kopt i))) =
      ∑ k ∈ Finset.range npt, q.pq k *
        dotQ n (xptM k) (fun i => x i - xptM kopt i) ^ 2 from
    Finset.sum_congr rfl fun k _ => by ring]
  ring

theorem Quadratic.shiftExpansionPoint_eval (n npt : ℕ) (q : Quadratic)
    (xptM : ℕ → ℕ → ℚ) (kopt knew : ℕ) (hsym : ∀ i j, q.hq i j = q.hq j i)
    (x : ℕ → ℚ) :
    (q.shiftExpansionPoint n npt (fun i => xptM knew i - xptM kopt i)
        xptM).eval n npt x xptM knew =
      q.eval n npt x xptM kopt - q.eval n npt (xptM knew) xptM kopt := by
  rw [Quadratic.eval_form n npt
      (q.shiftExpansionPoint n npt (fun i => xptM knew i - xptM kopt i) xptM)
      x xptM knew,
    Quadratic.eval_form n npt q x xptM kopt,
    Quadratic.eval_form n npt q (xptM knew) xptM kopt]
  rw [show ∀ v : ℕ → ℚ, Quadratic.hessp n npt
      (q.shiftExpansionPoint n npt (fun i => xptM knew i - xptM kopt i) xptM)
      v xptM = Quadratic.hessp n npt q v xptM from fun v => rfl]
  rw [show (q.shiftExpansionPoint n npt
        (fun i => xptM knew i - xptM kopt i) xptM).gq =
      (fun i => q.gq i + Quadratic.hessp n npt q
        (fun l => xptM knew l - xptM kopt l) xptM i) from rfl]
  rw [dotQ_add_left]
  rw [show (fun i => x i - xptM kopt i) =
      (fun i => (x i - xptM knew i) + (xptM knew i - xptM kopt i)) from
    funext fun i => by ring]
  rw [dotQ_add_right]
  rw [hessp_add]
  rw [dotQ_add_right n (fun i => (x i - xptM knew i) + (xptM knew i - xptM kopt i))]
  rw [dotQ_add_left]
  rw [dotQ_comm n (fun i => Quadratic.hessp n npt q
      (fun l => xptM knew l - xptM kopt l) xptM i) (fun i => x i - xptM knew i)]
  rw [dotQ_hessp_symm n npt q xptM hsym
      (fun i => xptM knew i - xptM kopt i) (fun i => x i - xptM knew i)]
  rw [dotQ_add_left]
  ring

/-- Symmetry of the explicit Hessian block of a quadratic. -/
def Quadratic.symmHess (q : Quadratic) : Prop := ∀ i j, q.hq i j = q.hq j i

/-- All quadratic models of the state have symmetric explicit Hessians,
as every quadratic built by the program does. -/
def ModelsState.quadsSymm (st : ModelsState) : Prop :=
  st.obj.symmHess ∧ st.objAlt.symmHess ∧ (∀ i, (st.cubQ i).symmHess) ∧
    (∀ i, (st.cubAltQ i).symmHess) ∧ (∀ i, (st.ceqQ i).symmHess) ∧
    ∀ i, (st.ceqAltQ i).symmHess

/-- The interpolation data of two Models states agree: dimensions, point
set, objective and residual values, constraint values, and the whole
inverse factorization B, Z, idz. -/
def modelsDataEq (a b : ModelsState) : Prop :=
  a.n = b.n ∧ a.npt = b.npt ∧ a.xpt = b.xpt ∧ a.fval = b.fval ∧
    a.rval = b.rval ∧ a.cvalub = b.cvalub ∧ a.cvaleq = b.cvaleq ∧
    a.bmat = b.bmat ∧ a.zmat = b.zmat ∧ a.idz = b.idz

/-- The quadratic models of two Models states agree as functions up to
an additive constant: all their value differences coincide. -/
def modelFunsEq (a b : ModelsState) : Prop :=
  (∀ x y, a.objVal x - a.objVal y = b.objVal x - b.objVal y) ∧
    (∀ x y, a.objAltVal x - a.objAltVal y = b.objAltVal x - b.objAltVal y) ∧
    (∀ i x y, a.cubVal i x - a.cubVal i y = b.cubVal i x - b.cubVal i y) ∧
    (∀ i x y,
      a.cubAltVal i x - a.cubAltVal i y = b.cubAltVal i x - b.cubAltVal i y) ∧
    (∀ i x y, a.ceqVal i x - a.ceqVal i y = b.ceqVal i x - b.ceqVal i y) ∧
    ∀ i x y,
      a.ceqAltVal i x - a.ceqAltVal i y = b.ceqAltVal i x - b.ceqAltVal i y

theorem modelsDataEq_refl (a : ModelsState) : modelsDataEq a a :=
  ⟨rfl, rfl, rfl, rfl, rfl, rfl, rfl, rfl, rfl, rfl⟩

theorem modelsDataEq_trans {a b c : ModelsState} (h1 : modelsDataEq a b)
    (h2 : modelsDataEq b c) : modelsDataEq a c := by
  obtain ⟨e1, e2, e3, e4, e5, e6, e7, e8, e9, e10⟩ := h1
  obtain ⟨f1, f2, f3, f4, f5, f6, f7, f8, f9, f10⟩ := h2
  exact ⟨e1.trans f1, e2.trans f2, e3.trans f3, e4.trans f4, e5.trans f5,
    e6.trans f6, e7.trans f7, e8.trans f8, e9.trans f9, e10.trans f10⟩

theorem modelFunsEq_refl (a : ModelsState) : modelFunsEq a a :=
  ⟨fun _ _ => rfl, fun _ _ => rfl, fun _ _ _ => rfl, fun _ _ _ => rfl,
    fun _ _ _ => rfl, fun _ _ _ => rfl⟩

theorem modelFunsEq_trans {a b c : ModelsState} (h1 : modelFunsEq a b)
    (h2 : modelFunsEq b c) : modelFunsEq a c := by
  obtain ⟨e1, e2, e3, e4, e5, e6⟩ := h1
  obtain ⟨f1, f2, f3, f4, f5, f6⟩ := h2
  exact ⟨fun x y => (e1 x y).trans (f1 x y),
    fun x y => (e2 x y).trans (f2 x y),
    fun i x y => (e3 i x y).trans (f3 i x y),
    fun i x y => (e4 i x y).trans (f4 i x y),
    fun i x y => (e5 i x y).trans (f5 i x y),
    fun i x y => (e6 i x y).trans (f6 i x y)⟩

theorem Models.setKopt_preserves (st : ModelsState) (knew : ℕ)
    (hsym : st.quadsSymm) :
    modelsDataEq (Models.setKopt st knew) st ∧
    modelFunsEq (Models.setKopt st knew) st ∧
    (Models.setKopt st knew).quadsSymm := by
  by_cases h : st.kopt = knew
  · unfold Models.setKopt
    rw [if_pos h]
    exact ⟨modelsDataEq_refl st, modelFunsEq_refl st, hsym⟩
  · obtain ⟨hs1, hs2, hs3, hs4, hs5, hs6⟩ := hsym
    have hval : ∀ (q : Quadratic), q.symmHess → ∀ x : ℕ → ℚ,
        (q.shiftExpansionPoint st.n st.npt
            (fun i => st.xpt knew i - st.xopt i) st.xpt).eval
          st.n st.npt x st.xpt knew =
        q.eval st.n st.npt x st.xpt st.kopt -
          q.eval st.n st.npt (st.xpt knew) st.xpt st.kopt := by
      intro q hq x
      have := Quadratic.shiftExpansionPoint_eval st.n st.npt q st.xpt
        st.kopt knew hq x
      simpa [ModelsState.xopt] using this
    unfold Models.setKopt
    rw [if_neg h]
    refine ⟨⟨rfl, rfl, rfl, rfl, rfl, rfl, rfl, rfl, rfl, rfl⟩, ?_, ?_⟩
    · refine ⟨?_, ?_, ?_, ?_, ?_, ?_⟩
      · intro x y
        unfold ModelsState.objVal ModelsState.fopt
        dsimp only
        rw [hval st.obj hs1 x, hval st.obj hs1 y]
        ring
      · intro x y
        unfold ModelsState.objAltVal ModelsState.fopt
        dsimp only
        rw [hval st.objAlt hs2 x, hval st.objAlt hs2 y]
        ring
      · intro i x y
        unfold ModelsState.cubVal ModelsState.coptub
        dsimp only
        rw [hval (st.cubQ i) (hs3 i) x, hval (st.cubQ i) (hs3 i) y]
        ring
      · intro i x y
        unfold ModelsState.cubAltVal ModelsState.coptub
        dsimp only
        rw [hval (st.cubAltQ i) (hs4 i) x, hval (st.cubAltQ i) (hs4 i) y]
        ring
      · intro i x y
        unfold ModelsState.ceqVal ModelsState.copteq
        dsimp only
        rw [hval (st.ceqQ i) (hs5 i) x, hval (st.ceqQ i) (hs5 i) y]
        ring
      · intro i x y
        unfold ModelsState.ceqAltVal ModelsState.copteq
        dsimp only
        rw [hval (st.ceqAltQ i) (hs6 i) x, hval (st.ceqAltQ i) (hs6 i) y]
        ring
    · exact ⟨hs1, hs2, hs3, hs4, hs5, hs6⟩

theorem TRState.penaltyLoop_preserves (xnew : ℕ → ℚ) (fx : ℚ)
    (cubx ceqx : ℕ → ℚ) (fuel : ℕ) :
    ∀ (ts : TRState) (mx mmx mopt : ℚ) (ksav : ℕ) (ts1 : TRState)
      (mx1 mmx1 mopt1 : ℚ), ts.models.quadsSymm →
      ts.penaltyLoop xnew fx cubx ceqx mx mmx mopt ksav fuel =
        some (ts1, mx1, mmx1, mopt1) →
      modelsDataEq ts1.models ts.models ∧ modelFunsEq ts1.models ts.models ∧
        ts1.models.quadsSymm ∧ ts1.knew = ts.knew := by
  induction fuel with
  | zero =>
    intro ts mx mmx mopt ksav ts1 mx1 mmx1 mopt1 hsym hl
    simp only [TRState.penaltyLoop] at hl
    exact Option.noConfusion hl
  | succ fuel ih =>
    intro ts mx mmx mopt ksav ts1 mx1 mmx1 mopt1 hsym hl
    simp only [TRState.penaltyLoop] at hl
    by_cases hc : ksav = ts.models.kopt ∧ mmx > mopt
    · rw [if_pos hc] at hl
      have hpres := Models.setKopt_preserves ts.models
        (TRState.getBestPoint
          { ts with
            penub := if ts.penub > 0 then 2 * ts.penub
              else if 0 < ts.models.mlub + ts.models.mnlub then 1 else ts.penub
            peneq := if ts.peneq > 0 then 2 * ts.peneq
              else if 0 < ts.models.mleq + ts.models.mnleq then 1 else ts.peneq })
        hsym
      obtain ⟨hd, hf, hq2, hk⟩ := ih _ _ _ _ _ _ _ _ _ hpres.2.2 hl
      exact ⟨modelsDataEq_trans hd hpres.1, modelFunsEq_trans hf hpres.2.1,
        hq2, hk⟩
    · rw [if_neg hc] at hl
      simp only [Option.some.injEq, Prod.mk.injEq] at hl
      obtain ⟨h1, h2, h3, h4⟩ := hl
      rw [← h1]
      exact ⟨modelsDataEq_refl _, modelFunsEq_refl _, hsym, rfl⟩

theorem TRState.updatePenaltyCoefficients_preserves (ts : TRState)
    (xnew : ℕ → ℚ) (fx : ℚ) (cubx ceqx : ℕ → ℚ) (fuel : ℕ) (ts1 : TRState)
    (mx mmx mopt : ℚ) (hsym : ts.models.quadsSymm)
    (h : ts.updatePenaltyCoefficients xnew fx cubx ceqx fuel =
      some (ts1, mx, mmx, mopt)) :
    modelsDataEq ts1.models ts.models ∧ modelFunsEq ts1.models ts.models ∧
      ts1.models.quadsSymm ∧ ts1.knew = ts.knew := by
  simp only [TRState.updatePenaltyCoefficients] at h
  by_cases hc : ¬ ts.isModelStep = true ∧
      (ts.meritValues xnew fx cubx ceqx).2 >
        ts.meritAx ts.models.xopt ts.models.fopt ts.models.coptub
          ts.models.copteq
  · rw [if_pos hc] at h
    exact TRState.penaltyLoop_preserves xnew fx cubx ceqx fuel
      ts _ _ _ _ ts1 mx mmx mopt hsym h
  · rw [if_neg hc] at h
    simp only [Option.some.injEq, Prod.mk.injEq] at h
    obtain ⟨h1, h2, h3, h4⟩ := h
    rw [← h1]
    exact ⟨modelsDataEq_refl _, modelFunsEq_refl _, hsym, rfl⟩

/-- C6: TrustRegion.update raises the restart signal exactly when the
penalty update changed the incumbent index kopt; on a raise the state
returned carries the models produced by the penalty loop only — the
interpolation points, value arrays and factorization are those of
entry, every quadratic model is unchanged as a function up to an
additive constant, the swap update was not reached, and the pending
step kind has been reset to a trust-region step. -/
theorem spec_c6 (sq : ℚ → ℚ) (ts : TRState) (step : ℕ → ℚ) (fx : ℚ)
    (cubx ceqx lm1 lm2 lm3 lm4 : ℕ → ℚ) (fuel : ℕ) (ts1 : TRState)
    (mx mmx mopt : ℚ) (hsym : ts.models.quadsSymm)
    (h : (if 0 < ts.models.mlub + ts.models.mnlub + ts.models.mleq +
            ts.models.mnleq then
          { ts with lmlub := lm1, lmleq := lm2, lmnlub := lm3, lmnleq := lm4 }
        else ts).updatePenaltyCoefficients
        (fun i => ts.models.xopt i + step i) fx cubx ceqx fuel =
      some (ts1, mx, mmx, mopt)) :
    ((∃ ts', TrustRegion.update sq ts step fx cubx ceqx lm1 lm2 lm3 lm4 fuel =
        some (.restart ts')) ↔ ts.models.kopt ≠ ts1.models.kopt) ∧
    (ts.models.kopt ≠ ts1.models.kopt →
      TrustRegion.update sq ts step fx cubx ceqx lm1 lm2 lm3 lm4 fuel =
        some (.restart { ts1 with knew := none }) ∧
      ({ ts1 with knew := none } : TRState).knew = none ∧
      modelsDataEq ts1.models ts.models ∧
      modelFunsEq ts1.models ts.models) := by
  have hts0m : (if 0 < ts.models.mlub + ts.models.mnlub + ts.models.mleq +
          ts.models.mnleq then
        { ts with lmlub := lm1, lmleq := lm2, lmnlub := lm3, lmnleq := lm4 }
      else ts).models = ts.models := by
    split_ifs <;> rfl
  have hsym0 : (if 0 < ts.models.mlub + ts.models.mnlub + ts.models.mleq +
          ts.models.mnleq then
        { ts with lmlub := lm1, lmleq := lm2, lmnlub := lm3, lmnleq := lm4 }
      else ts).models.quadsSymm := by
    rw [hts0m]
    exact hsym
  have hpres := TRState.updatePenaltyCoefficients_preserves _ _ _ _ _ fuel
    ts1 mx mmx mopt hsym0 h
  rw [hts0m] at hpres
  by_cases hne : ts.models.kopt ≠ ts1.models.kopt
  · have hres : TrustRegion.update sq ts step fx cubx ceqx lm1 lm2 lm3 lm4
        fuel = some (.restart { ts1 with knew := none }) := by
      simp only [TrustRegion.update]
      rw [h]
      dsimp only
      rw [hts0m]
      rw [if_pos hne]
    exact ⟨⟨fun _ => hne, fun _ => ⟨_, hres⟩⟩,
      fun _ => ⟨hres, rfl, hpres.1, hpres.2.1⟩⟩
  · have hnores : ∀ ts', TrustRegion.update sq ts step fx cubx ceqx lm1 lm2
        lm3 lm4 fuel ≠ some (.restart ts') := by
      intro ts' hcon
      simp only [TrustRegion.update] at hcon
      rw [h] at hcon
      dsimp only at hcon
      rw [hts0m] at hcon
      rw [if_neg hne] at hcon
      rcases hm : Models.update sq ts1.models
          (fun i => step i + ts.models.xopt i - ts1.models.xopt i) fx cubx
          ceqx ts1.knew with mst | mk
      · rw [hm] at hcon
        exact Option.noConfusion hcon fun hcc => TRUpdateResult.noConfusion hcc
      · rw [hm] at hcon
        obtain ⟨mst, kr⟩ := mk
        dsimp only at hcon
        split_ifs at hcon <;>
          exact Option.noConfusion hcon fun hcc => TRUpdateResult.noConfusion hcc
    refine ⟨⟨?_, fun hk => absurd hk hne⟩, fun hk => absurd hk hne⟩
    rintro ⟨ts', hres⟩
    exact absurd hres (hnores ts')

theorem cexPen6_eq :
    (if 0 < cexTR1.models.mlub + cexTR1.models.mnlub + cexTR1.models.mleq +
        cexTR1.models.mnleq then
      { cexTR1 with
          lmlub := zeroVec
          lmleq := zeroVec
          lmnlub := zeroVec
          lmnleq := zeroVec }
    else cexTR1).updatePenaltyCoefficients
      (fun i => cexTR1.models.xopt i + zeroVec i) 0 zeroVec zeroVec 1 =
      some (cexTR1, 0, 0, 0) := by
  norm_num [TRState.updatePenaltyCoefficients, TRState.meritValues,
    TRState.meritAx, TRState.isModelStep, cexTR1, cexModels1, zeroVec,
    zeroQuad, ModelsState.objVal, Quadratic.eval, ModelsState.xopt,
    ModelsState.fopt, ModelsState.coptub, ModelsState.copteq, dotQ, foldMax,
    tinyQ, Finset.sum_range_succ, Finset.sum_range_zero]

/-- C6 witness: the raise characterisation applied at the concrete
unconstrained state, where the penalty update leaves kopt in place, so
no restart is raised. -/
theorem spec_c6_witness :
    cexTR1.models.quadsSymm ∧
    ¬ ∃ ts', TrustRegion.update ratSqrt cexTR1 zeroVec 0 zeroVec zeroVec
        zeroVec zeroVec zeroVec zeroVec 1 = some (.restart ts') := by
  have hsym : cexTR1.models.quadsSymm :=
    ⟨fun _ _ => rfl, fun _ _ => rfl, fun _ _ _ => rfl, fun _ _ _ => rfl,
      fun _ _ _ => rfl, fun _ _ _ => rfl⟩
  refine ⟨hsym, ?_⟩
  intro hex
  exact absurd ((spec_c6 ratSqrt cexTR1 zeroVec 0 zeroVec zeroVec zeroVec
      zeroVec zeroVec zeroVec 1 cexTR1 0 0 0 hsym cexPen6_eq).1.mp hex)
    (fun hk => hk rfl)

/-- Trust-region ratio of TrustRegion.update: the true merit decrease
over the model-merit decrease on a trust-region step whose model
decrease clears the tiny relative threshold, minus one otherwise. -/
def trRatio (modelStep : Bool) (mx mmx mopt : ℚ) : ℚ :=
  if ¬ modelStep = true ∧ |mopt - mmx| > tinyQ * |mopt - mx| then
    (mopt - mx) / (mopt - mmx)
  else -1

/-- C9: when the penalty update returns and keeps the incumbent index,
and the swap update does not raise, TrustRegion.update returns the
trust-region ratio: merit decrease (mopt - mx) over model-merit
decrease (mopt - mmx) whenever the pending step is a trust-region step
and the model decrease is non-negligible, and -1 on every geometry
step. -/
theorem spec_c9 (sq : ℚ → ℚ) (ts : TRState) (step : ℕ → ℚ) (fx : ℚ)
    (cubx ceqx lm1 lm2 lm3 lm4 : ℕ → ℚ) (fuel : ℕ) (ts1 : TRState)
    (mx mmx mopt : ℚ)
    (h : (if 0 < ts.models.mlub + ts.models.mnlub + ts.models.mleq +
            ts.models.mnleq then
          { ts with lmlub := lm1, lmleq := lm2, lmnlub := lm3, lmnleq := lm4 }
        else ts).updatePenaltyCoefficients
        (fun i => ts.models.xopt i + step i) fx cubx ceqx fuel =
      some (ts1, mx, mmx, mopt))
    (hk : ts.models.kopt = ts1.models.kopt)
    (hupd : errPart (Models.update sq ts1.models
        (fun i => step i + ts.models.xopt i - ts1.models.xopt i) fx cubx ceqx
        ts1.knew) = none) :
    ∃ ts2 mret,
      TrustRegion.update sq ts step fx cubx ceqx lm1 lm2 lm3 lm4 fuel =
        some (.ok ts2 mret (trRatio ts1.isModelStep mx mmx mopt)) ∧
      ((¬ ts1.isModelStep = true ∧ |mopt - mmx| > tinyQ * |mopt - mx|) →
        trRatio ts1.isModelStep mx mmx mopt = (mopt - mx) / (mopt - mmx)) ∧
      (ts1.isModelStep = true → trRatio ts1.isModelStep mx mmx mopt = -1) := by
  have hts0m : (if 0 < ts.models.mlub + ts.models.mnlub + ts.models.mleq +
          ts.models.mnleq then
        { ts with lmlub := lm1, lmleq := lm2, lmnlub := lm3, lmnleq := lm4 }
      else ts).models = ts.models := by
    split_ifs <;> rfl
  have himp1 : (¬ ts1.isModelStep = true ∧
      |mopt - mmx| > tinyQ * |mopt - mx|) →
      trRatio ts1.isModelStep mx mmx mopt = (mopt - mx) / (mopt - mmx) := by
    intro hc
    unfold trRatio
    rw [if_pos hc]
  have himp2 : ts1.isModelStep = true →
      trRatio ts1.isModelStep mx mmx mopt = -1 := by
    intro hms
    unfold trRatio
    rw [if_neg (fun hc => hc.1 hms)]
  rcases hm : Models.update sq ts1.models
      (fun i => step i + ts.models.xopt i - ts1.models.xopt i) fx cubx ceqx
      ts1.knew with mst | mk
  · rw [hm] at hupd
    exact absurd hupd (by simp [errPart])
  · obtain ⟨mst, kr⟩ := mk
    by_cases hlm : ts1.lessMerit mx
        (ts1.models.residVal (fun i => ts.models.xopt i + step i) cubx ceqx)
        mopt (mst.rval mst.kopt)
    · refine ⟨{ ts1 with models := Models.setKopt mst kr, knew := some kr },
        mx, ?_, himp1, himp2⟩
      simp only [TrustRegion.update]
      rw [h]
      dsimp only
      rw [hts0m]
      rw [if_neg (fun hne => hne hk)]
      rw [hm]
      dsimp only
      rw [if_pos hlm]
      rfl
    · refine ⟨{ ts1 with models := mst, knew := some kr }, mopt, ?_, himp1,
        himp2⟩
      simp only [TrustRegion.update]
      rw [h]
      dsimp only
      rw [hts0m]
      rw [if_neg (fun hne => hne hk)]
      rw [hm]
      dsimp only
      rw [if_neg hlm]
      rfl

/-- Concrete trust-region state over cexModels2 with a pending
model-improvement step on index 3. -/
def cexTR9 : TRState :=
  { models := cexModels2, xbase := zeroVec, penub := 1, peneq := 0
    lmlub := zeroVec, lmleq := zeroVec, lmnlub := zeroVec, lmnleq := zeroVec
    knew := some 3 }

theorem cexPen9_eq :
    (if 0 < cexTR9.models.mlub + cexTR9.models.mnlub + cexTR9.models.mleq +
        cexTR9.models.mnleq then
      { cexTR9 with
          lmlub := zeroVec
          lmleq := zeroVec
          lmnlub := zeroVec
          lmnleq := zeroVec }
    else cexTR9).updatePenaltyCoefficients
      (fun i => cexTR9.models.xopt i + cexLine4 i) 0 zeroVec zeroVec 1 =
      some (cexTR9, 0, 0, 0) := by
  norm_num [TRState.updatePenaltyCoefficients, TRState.meritValues,
    TRState.meritAx, TRState.isModelStep, cexTR9, cexModels2, zeroVec,
    cexLine4, zeroQuad, ModelsState.objVal, Quadratic.eval, ModelsState.xopt,
    ModelsState.fopt, ModelsState.coptub, ModelsState.copteq, dotQ, foldMax,
    tinyQ, Finset.sum_range_succ, Finset.sum_range_zero]

theorem cexUpd9_eq :
    errPart (Models.update ratSqrt cexTR9.models
      (fun i => cexLine4 i + cexTR9.models.xopt i - cexTR9.models.xopt i) 0
      zeroVec zeroVec cexTR9.knew) = none := by
  simp only [cexTR9]
  simp only [Models.update, Option.getD_some]
  rw [cexZrot2_eq]
  rw [if_neg]
  · rfl
  · norm_num [ModelsState.betaPair, ModelsState.xopt, ModelsState.mcols,
      dotQ, cexModels2, cexLine4, zeroVec, Finset.sum_range_succ,
      Finset.sum_range_zero, matAbsMax, foldMax, tinyQ, abs, max_def]

/-- C9 witness: the ratio characterisation applied at the concrete
state cexTR9, whose pending step is a geometry step, so the returned
ratio is -1. -/
theorem spec_c9_witness :
    ∃ ts2 mret,
      TrustRegion.update ratSqrt cexTR9 cexLine4 0 zeroVec zeroVec zeroVec
          zeroVec zeroVec zeroVec 1 =
        some (.ok ts2 mret (trRatio cexTR9.isModelStep 0 0 0)) ∧
      ((¬ cexTR9.isModelStep = true ∧ |(0 : ℚ) - 0| > tinyQ * |(0 : ℚ) - 0|) →
        trRatio cexTR9.isModelStep 0 0 0 = ((0 : ℚ) - 0) / ((0 : ℚ) - 0)) ∧
      (cexTR9.isModelStep = true → trRatio cexTR9.isModelStep 0 0 0 = -1) :=
  spec_c9 ratSqrt cexTR9 cexLine4 0 zeroVec zeroVec zeroVec zeroVec zeroVec
    zeroVec 1 cexTR9 0 0 0 cexPen9_eq rfl cexUpd9_eq
